import Mathlib

/-!
Verification of the CACTA transposable-element detection core
(`detect_cacta.py` and its argument-validation module).

The Python source is shallowly embedded: sequences are `List Char`,
Python `int` positions are `Nat` (they are offsets into a sequence) and
the user-supplied length window is `Int` (arbitrary Python integers).
Fallible lookups (`BASE_TO_NUM[base]`, which raises `KeyError` on a
symbol outside A/C/G/T) are modelled with `Option`.  The module-level
mutable counter `candidate_id` is threaded through the functions as
explicit state.
-/

namespace Cacta

/-- Python slice `s[a:b]` for non-negative bounds: elements `a, …, b-1`,
truncated at the end of the list. -/
def pySlice (s : List Char) (a b : Nat) : List Char :=
  (s.take b).drop a

/-- `BASE_TO_NUM = {"A": 0, "C": 1, "G": 2, "T": 3}`; a lookup of any
other symbol raises `KeyError` in Python, modelled as `none`. -/
def BASE_TO_NUM (c : Char) : Option Nat :=
  if c = 'A' then some 0
  else if c = 'C' then some 1
  else if c = 'G' then some 2
  else if c = 'T' then some 3
  else none

/-- The four-letter nucleotide alphabet used by the content check
`set(tir_remainder + tsd) - {"A", "C", "G", "T"} != set()`. -/
def isACGT (c : Char) : Bool :=
  c = 'A' || c = 'C' || c = 'G' || c = 'T'

/-- Watson-Crick complement of one base, as applied by
`Bio.Seq.Seq.reverse_complement` on the A/C/G/T alphabet (the pipeline
only ever complements slices verified to contain these four letters). -/
def complementBase (c : Char) : Char :=
  if c = 'A' then 'T'
  else if c = 'T' then 'A'
  else if c = 'C' then 'G'
  else if c = 'G' then 'C'
  else c

/-- `Seq(tir).reverse_complement()`: complement every base, then reverse. -/
def reverse_complement (l : List Char) : List Char :=
  (l.map complementBase).reverse

/-- The accumulation loop of `tir_tsd_hash`: starting at exponent `e`,
add `BASE_TO_NUM[base] * 4 ** exponent` for each base, incrementing the
exponent.  `none` models the `KeyError` raised on a non-ACGT base. -/
def hashFrom : List Char → Nat → Option Nat
  | [], _ => some 0
  | b :: rest, e =>
      match BASE_TO_NUM b, hashFrom rest (e + 1) with
      | some d, some r => some (d * 4 ^ e + r)
      | _, _ => none

/-- `tir_tsd_hash(tir, tsd, opening_tir)`: quaternary encoding of the
TIR remainder (reverse-complemented first when the TIR is closing)
followed by the TSD at the next exponents. -/
def tir_tsd_hash (tir tsd : List Char) (openingTir : Bool) : Option Nat :=
  let t := if openingTir then tir else reverse_complement tir
  match hashFrom t 0, hashFrom tsd t.length with
  | some h1, some h2 => some (h1 + h2)
  | _, _ => none

/-- `tir_tsd_condensed(tir_position, genome_length, opening_tir)`:
`True` when the TIR sits too close to an end of the genome for its
remainder and TSD windows to exist. -/
def tir_tsd_condensed (tirPosition genomeLength : Nat) (openingTir : Bool) : Bool :=
  (openingTir && (decide (tirPosition < 3) || decide (genomeLength < tirPosition + 10))) ||
  (!openingTir && (decide (genomeLength < tirPosition + 8) || decide (tirPosition < 5)))

/-- The `while match_count > 0 and pattern[match_count] != pattern[i]`
fallback loop shared by `create_prefix_table` and `find_all_tirs`,
with state `match_count = k` and body `match_count = prefix_table[k-1]`.
The extra fuel argument makes the recursion structural; every call in
this file passes fuel `k`, which suffices because the table entry at
`k - 1` is a proper border length, hence `< k` (proved below). -/
def kmpFallback (table : List Nat) (p : List Char) (c : Char) : Nat → Nat → Nat
  | _, 0 => 0
  | 0, k + 1 => k + 1
  | fuel + 1, k + 1 =>
      if p.getD (k + 1) ' ' = c then k + 1
      else kmpFallback table p c fuel (table.getD k 0)

/-- The `for i in range(1, pattern_length)` loop of `create_prefix_table`.
`table` starts as `[0] * pattern_length` and is updated in place via
`prefix_table[i] = match_count` in the matching branch only.  The first
argument counts the remaining iterations (`pattern_length - i`, exact),
making the recursion structural. -/
def createPrefixTableAux (p : List Char) : Nat → Nat → List Nat → Nat → List Nat
  | 0, _, table, _ => table
  | fuel + 1, i, table, matchCount =>
      let mc := kmpFallback table p (p.getD i ' ') matchCount matchCount
      if p.getD mc ' ' = p.getD i ' ' then
        createPrefixTableAux p fuel (i + 1) (table.set i (mc + 1)) (mc + 1)
      else
        createPrefixTableAux p fuel (i + 1) table mc

/-- `create_prefix_table(pattern)`: the Knuth-Morris-Pratt failure table.
The loop runs over `i in range(1, pattern_length)`: `pattern_length - 1`
iterations. -/
def create_prefix_table (p : List Char) : List Nat :=
  createPrefixTableAux p (p.length - 1) 1 (List.replicate p.length 0) 0

/-- The length of the longest proper border of `p.take l` (the longest
`k < l` with `p.take k` both a prefix and a suffix of `p.take l`): the
value KMP's failure table stores at index `l - 1`.  Specification device
for the correctness proof of `create_prefix_table`. -/
def borderLen (p : List Char) (l : Nat) : Nat :=
  Nat.findGreatest (fun k => p.take k <:+ p.take l) (l - 1)

/-- The body shared by every full KMP match in `find_all_tirs` after a
position survives the `tir_tsd_condensed` boundary check: cut the
remainder and TSD windows, drop the occurrence when they contain a
non-ACGT symbol, and otherwise pair the position with its hash.  The
boundary check guarantees `pos - 3` (opening) and `pos - 5` (closing)
are genuine non-negative Python indices, so `Nat` subtraction agrees
with the source.  A `none` from `tir_tsd_hash` would be a `KeyError`
in Python; it is proved unreachable below. -/
def processOccurrence (s : List Char) (opening : Bool) (pos : Nat) :
    Option (Nat × Nat) :=
  if tir_tsd_condensed pos s.length opening then none
  else
    let tirRemainder :=
      if opening then pySlice s (pos + 5) (pos + 10) else pySlice s (pos - 5) pos
    let tsd :=
      if opening then pySlice s (pos - 3) pos else pySlice s (pos + 5) (pos + 8)
    if (tirRemainder ++ tsd).all isACGT then
      (tir_tsd_hash tirRemainder tsd opening).map fun h => (pos, h)
    else none

/-- The `for i in range(sequence_length)` scan of `find_all_tirs` with
matched-length state `j`.  The first `Nat` argument counts the remaining
iterations (`sequence_length - i`, exact), making the recursion
structural.  On a full match the source computes
`tir_position = i - tir_length + 1`; there `tir_length <= i + 1`, so the
truncated form `i + 1 - tir_length` is the same number. -/
def findAllTirsAux (tir s : List Char) (opening : Bool) (table : List Nat) :
    Nat → Nat → Nat → List (Nat × Nat) → List (Nat × Nat)
  | 0, _, _, acc => acc
  | fuel + 1, i, j, acc =>
      let c := s.getD i ' '
      let j1 := kmpFallback table tir c j j
      if c ≠ tir.getD j1 ' ' then
        findAllTirsAux tir s opening table fuel (i + 1) j1 acc
      else if j1 + 1 ≠ tir.length then
        findAllTirsAux tir s opening table fuel (i + 1) (j1 + 1) acc
      else
        let j2 := table.getD j1 0
        let pos := i + 1 - tir.length
        match processOccurrence s opening pos with
        | some occ => findAllTirsAux tir s opening table fuel (i + 1) j2 (acc ++ [occ])
        | none => findAllTirsAux tir s opening table fuel (i + 1) j2 acc

/-- `find_all_tirs(tir, sequence, opening_tir)`. -/
def find_all_tirs (tir s : List Char) (opening : Bool) : List (Nat × Nat) :=
  if tir.length = 0 then []
  else findAllTirsAux tir s opening (create_prefix_table tir) s.length 0 0 []

/-- The spec-side occurrence collector used to settle C3: every offset
`pos` in `[0, n - m]` whose window literally equals the motif, including
overlaps, in increasing order, post-processed by the same boundary and
content checks; empty when the motif is empty. -/
def naiveTirOccurrences (tir s : List Char) (opening : Bool) : List (Nat × Nat) :=
  if tir.length = 0 then []
  else
    (List.range (s.length + 1 - tir.length)).filterMap fun pos =>
      if pySlice s pos (pos + tir.length) = tir then processOccurrence s opening pos
      else none

/-- The inner `for i in range(smallest_relevant_closing_tir, closing_tirs_len)`
loop of `filter_matching_tirs`, for one opening occurrence.  State: the
scan index `i`, the shared cursor `lo` (`smallest_relevant_closing_tir`)
and the accumulator; returns the updated cursor and accumulator. -/
def matchInner (closes : List (Nat × Nat)) (oPos oHash : Nat)
    (minLen maxLen : Int) : Nat → Nat → Nat → List (Nat × Nat) →
    Nat × List (Nat × Nat)
  | 0, _, lo, acc => (lo, acc)
  | fuel + 1, i, lo, acc =>
      let c := closes.getD i (0, 0)
      if (oPos : Int) + maxLen < (c.1 : Int) then (lo, acc)
      else if (c.1 : Int) + 4 < (oPos : Int) + minLen then
        matchInner closes oPos oHash minLen maxLen fuel (i + 1) (lo + 1) acc
      else if oHash = c.2 then
        matchInner closes oPos oHash minLen maxLen fuel (i + 1) lo (acc ++ [(oPos, c.1)])
      else
        matchInner closes oPos oHash minLen maxLen fuel (i + 1) lo acc

/-- The outer loop of `filter_matching_tirs` over the opening
occurrences, threading the shared monotone cursor.  The inner loop runs
over `i in range(lo, closing_tirs_len)`: exactly `closes.length - lo`
iterations, passed as structural fuel. -/
def matchOuter (closes : List (Nat × Nat)) (minLen maxLen : Int) :
    List (Nat × Nat) → Nat → List (Nat × Nat) → List (Nat × Nat)
  | [], _, acc => acc
  | o :: rest, lo, acc =>
      let r := matchInner closes o.1 o.2 minLen maxLen (closes.length - lo) lo lo acc
      matchOuter closes minLen maxLen rest r.1 r.2

/-- `filter_matching_tirs(opening_tirs, closing_tirs, min_length, max_length)`. -/
def filter_matching_tirs (opens closes : List (Nat × Nat))
    (minLen maxLen : Int) : List (Nat × Nat) :=
  matchOuter closes minLen maxLen opens 0 []

/-- The brute-force nested-loop reference matcher of claim C1: all
`(open, close)` combinations passing hash equality and the two spacing
inequalities, in the same outer/inner scan order. -/
def bruteForceMatchingTirs (opens closes : List (Nat × Nat))
    (minLen maxLen : Int) : List (Nat × Nat) :=
  opens.flatMap fun o =>
    closes.filterMap fun c =>
      if o.2 = c.2 ∧ (o.1 : Int) + minLen ≤ (c.1 : Int) + 4 ∧
          (c.1 : Int) ≤ (o.1 : Int) + maxLen then
        some (o.1, c.1)
      else none

/-- One detected candidate: the Python tuple
`(title, sequence, opening, closing + 5, seq_id)`. -/
structure Candidate where
  title : String
  seq : List Char
  start : Nat
  stop : Nat
  seqId : Nat
  deriving Repr, DecidableEq

/-- `extract_tir_info(record, aligner, length=28)` from
`utils/tir_information.py`.  The Biopython pairwise aligner is abstracted
as a function returning the `(gaps, identities, mismatches)` counts of the
best local alignment of the first `length` bases against the reverse
strand of the last `length` bases (`sequence[-length:]`, i.e. the whole
sequence when it is shorter).  The returned sequence is the input
sequence unchanged; only the title gains a suffix. -/
def extract_tir_info (aligner : List Char → List Char → Nat × Nat × Nat)
    (record : String × List Char) (len : Nat) : String × List Char :=
  let title := record.1
  let sequence := record.2
  let counts := aligner (pySlice sequence 0 len)
    (sequence.drop (sequence.length - len))
  let gaps := counts.1
  let identities := counts.2.1
  let mismatches := counts.2.2
  (title ++ ("_" ++ toString (gaps + identities + mismatches) ++ "bpTIR(m=" ++
      toString mismatches ++ ", g=" ++ toString gaps ++ ")"),
    sequence)

/-- `retrieve_candidates(record, matching_tirs, tir_info, elements, seq_id)`:
the global `candidate_id` counter is threaded explicitly as `cid`
(state in, state out). -/
def retrieve_candidates (aligner : List Char → List Char → Nat × Nat × Nat)
    (record : String × List Char) (matching : List (Nat × Nat))
    (tirInfo : Bool) (elements : List Candidate) (seqId cid : Nat) :
    List Candidate × Nat :=
  match matching with
  | [] => (elements, cid)
  | (opening, closing) :: rest =>
      let title := record.1 ++ "_CACTA" ++ toString cid
      let sequence := pySlice record.2 opening (closing + 5)
      let ts := if tirInfo then extract_tir_info aligner (title, sequence) 28
                else (title, sequence)
      retrieve_candidates aligner record rest tirInfo
        (elements ++ [⟨ts.1, ts.2, opening, closing + 5, seqId⟩]) seqId (cid + 1)

/-- `detect_cacta(record, args, elements, seq_id)`: the CACTA/TAGTG family. -/
def detect_cacta (aligner : List Char → List Char → Nat × Nat × Nat)
    (record : String × List Char) (minLen maxLen : Int) (tirInfo : Bool)
    (elements : List Candidate) (seqId cid : Nat) : List Candidate × Nat :=
  let cactaTirs := find_all_tirs "CACTA".toList record.2 true
  let tagtgTirs := find_all_tirs "TAGTG".toList record.2 false
  let matching := filter_matching_tirs cactaTirs tagtgTirs minLen maxLen
  retrieve_candidates aligner record matching tirInfo elements seqId cid

/-- `detect_cactg(record, args, elements, seq_id)`: the CACTG/CAGTG family. -/
def detect_cactg (aligner : List Char → List Char → Nat × Nat × Nat)
    (record : String × List Char) (minLen maxLen : Int) (tirInfo : Bool)
    (elements : List Candidate) (seqId cid : Nat) : List Candidate × Nat :=
  let cactgTirs := find_all_tirs "CACTG".toList record.2 true
  let cagtgTirs := find_all_tirs "CAGTG".toList record.2 false
  let matching := filter_matching_tirs cactgTirs cagtgTirs minLen maxLen
  retrieve_candidates aligner record matching tirInfo elements seqId cid

/-- The `for seq_id, record in enumerate(SimpleFastaParser(...), 1)` loop
of `detect_all_candidates`, threading the accumulated list and counter. -/
def detectAllAux (aligner : List Char → List Char → Nat × Nat × Nat)
    (minLen maxLen : Int) (tirInfo : Bool) :
    List (String × List Char) → Nat → List Candidate × Nat → List Candidate × Nat
  | [], _, st => st
  | record :: rest, seqId, st =>
      let st1 := detect_cacta aligner record minLen maxLen tirInfo st.1 seqId st.2
      let st2 := detect_cactg aligner record minLen maxLen tirInfo st1.1 seqId st1.2
      detectAllAux aligner minLen maxLen tirInfo rest (seqId + 1) st2

/-- `detect_all_candidates(temp_handle, args)` on an already parsed record
list; the module-level `candidate_id = 1` initialisation appears as the
initial counter state. -/
def detect_all_candidates (aligner : List Char → List Char → Nat × Nat × Nat)
    (minLen maxLen : Int) (tirInfo : Bool)
    (records : List (String × List Char)) : List Candidate × Nat :=
  detectAllAux aligner minLen maxLen tirInfo records 1 ([], 1)

/-- `parsing_utils.validate_arg_bounds(arg, lower, upper)`: `none` models
the raised `argparse.ArgumentTypeError`. -/
def validate_arg_bounds (number lower upper : Int) : Option Int :=
  if number < lower ∨ upper < number then none else some number

/-- `parsing/detect_cacta.validate_min_length`. -/
def validate_min_length (n : Int) : Option Int :=
  validate_arg_bounds n 50 23018

/-- `parsing/detect_cacta.validate_max_length`. -/
def validate_max_length (n : Int) : Option Int :=
  validate_arg_bounds n 50 30000

/-- The whole length validation performed by `parse_arguments`: argparse
runs the two bound validators independently; no other check relates
`--min-len` and `--max-len`. -/
def accepts_lengths (minLen maxLen : Int) : Bool :=
  (validate_min_length minLen).isSome && (validate_max_length maxLen).isSome

/-- A 58-symbol genome holding exactly one CACTA element, used to
witness the claims on a concrete run: TSD `GGG`, opening `CACTA` at
position 3 with remainder `AAAAA`, 32 `C` filler symbols, raw closing
remainder `TTTTT`, closing `TAGTG` at position 50, TSD `GGG`. -/
def demoSeq : List Char :=
  "GGGCACTAAAAAACCCCCCCCCCCCCCCCCCCCCCCCCCCCCCCCTTTTTTAGTGGGG".toList

/-- A trivial stand-in for the external alignment engine, for concrete
witness runs (`detect_all_candidates` only consults it when the
`tir_info` flag is set). -/
def nullAligner : List Char → List Char → Nat × Nat × Nat :=
  fun _ _ => (0, 0, 0)

end Cacta

namespace Cacta

/-! ### Generic list helpers -/

lemma take_isPre {α : Type} (l : List α) (k : Nat) : l.take k <+: l :=
  ⟨l.drop k, List.take_append_drop k l⟩

/-! ### The hash encoder (claims C2, C6) -/

lemma complementBase_involutive (c : Char) :
    complementBase (complementBase c) = c := by
  by_cases hA : c = 'A'
  · subst hA; decide
  by_cases hT : c = 'T'
  · subst hT; decide
  by_cases hC : c = 'C'
  · subst hC; decide
  by_cases hG : c = 'G'
  · subst hG; decide
  simp [complementBase, hA, hT, hC, hG]

lemma reverse_complement_involutive (l : List Char) :
    reverse_complement (reverse_complement l) = l := by
  unfold reverse_complement
  rw [← List.map_reverse, List.reverse_reverse, List.map_map]
  have : complementBase ∘ complementBase = id := funext complementBase_involutive
  rw [this, List.map_id]

lemma BASE_TO_NUM_isSome {c : Char} (h : isACGT c = true) :
    (BASE_TO_NUM c).isSome := by
  simp only [isACGT, Bool.or_eq_true, decide_eq_true_eq] at h
  rcases h with ((h | h) | h) | h <;> subst h <;> decide

lemma hashFrom_eq_sum (l : List Char) :
    ∀ e, (∀ c ∈ l, isACGT c = true) →
      hashFrom l e =
        some (∑ k ∈ Finset.range l.length,
          (BASE_TO_NUM (l.getD k ' ')).getD 0 * 4 ^ (e + k)) := by
  induction l with
  | nil => intro e _; simp [hashFrom]
  | cons b rest ih =>
    intro e h
    have hb : (BASE_TO_NUM b).isSome := BASE_TO_NUM_isSome (h b (List.mem_cons_self b rest))
    obtain ⟨d, hd⟩ := Option.isSome_iff_exists.mp hb
    rw [hashFrom, hd, ih (e + 1) fun c hc => h c (List.mem_cons_of_mem _ hc)]
    simp only [List.length_cons]
    congr 1
    rw [Finset.sum_range_succ']
    simp only [List.getD_cons_succ, List.getD_cons_zero, hd, Option.getD_some,
      Nat.add_zero, Nat.pow_zero]
    have he : ∀ k : Nat, e + (k + 1) = e + 1 + k := by omega
    rw [Nat.add_comm]
    congr 1
    exact Finset.sum_congr rfl fun k _ => by rw [he k]

lemma hashFrom_isSome (l : List Char) :
    ∀ e, (∀ c ∈ l, isACGT c = true) → (hashFrom l e).isSome := by
  intro e h; rw [hashFrom_eq_sum l e h]; rfl

/-- Compute rule of `tir_tsd_hash` for an opening TIR. -/
lemma tir_tsd_hash_true (tir tsd : List Char) :
    tir_tsd_hash tir tsd true =
      match hashFrom tir 0, hashFrom tsd tir.length with
      | some h1, some h2 => some (h1 + h2)
      | _, _ => none := rfl

/-- Compute rule of `tir_tsd_hash` for a closing TIR. -/
lemma tir_tsd_hash_false (tir tsd : List Char) :
    tir_tsd_hash tir tsd false =
      match hashFrom (reverse_complement tir) 0,
        hashFrom tsd (reverse_complement tir).length with
      | some h1, some h2 => some (h1 + h2)
      | _, _ => none := rfl

/-- The hash is total on ACGT strings: the `KeyError` branch of
`BASE_TO_NUM` cannot fire (used by C6). -/
lemma tir_tsd_hash_isSome {tir tsd : List Char} (opening : Bool)
    (htir : ∀ c ∈ tir, isACGT c = true) (htsd : ∀ c ∈ tsd, isACGT c = true) :
    (tir_tsd_hash tir tsd opening).isSome := by
  have hrc : ∀ c ∈ reverse_complement tir, isACGT c = true := by
    intro c hc
    simp only [reverse_complement, List.mem_reverse, List.mem_map] at hc
    obtain ⟨a, ha, rfl⟩ := hc
    have := htir a ha
    simp only [isACGT, Bool.or_eq_true, decide_eq_true_eq] at this ⊢
    rcases this with ((h | h) | h) | h <;> subst h <;> simp [complementBase]
  cases opening with
  | true =>
    rw [tir_tsd_hash_true]
    obtain ⟨a, ha⟩ := Option.isSome_iff_exists.mp (hashFrom_isSome tir 0 htir)
    obtain ⟨b, hb⟩ := Option.isSome_iff_exists.mp (hashFrom_isSome tsd tir.length htsd)
    rw [ha, hb]; rfl
  | false =>
    rw [tir_tsd_hash_false]
    obtain ⟨a, ha⟩ :=
      Option.isSome_iff_exists.mp (hashFrom_isSome (reverse_complement tir) 0 hrc)
    obtain ⟨b, hb⟩ := Option.isSome_iff_exists.mp
      (hashFrom_isSome tsd (reverse_complement tir).length htsd)
    rw [ha, hb]; rfl

/-- C2.  `tir_tsd_hash` encodes the 5-base remainder at weights
`4^0..4^4` and the 3-base TSD at weights `4^5..4^7` with digits A=0,
C=1, G=2, T=3, reverse-complementing the remainder (only) when the TIR
is closing; hence hashing a remainder as opening equals hashing its
reverse complement as closing, and the concrete pair
`("AAAAA", "CCC")` / `("TTTTT", "CCC")` both hash to 21504. -/
theorem C2_hash_canonicalization :
    (∀ r t : List Char,
      tir_tsd_hash r t true = tir_tsd_hash (reverse_complement r) t false) ∧
    tir_tsd_hash "AAAAA".toList "CCC".toList true = some 21504 ∧
    tir_tsd_hash "TTTTT".toList "CCC".toList false = some 21504 ∧
    (∀ r t : List Char, r.length = 5 → t.length = 3 →
      (∀ c ∈ r ++ t, isACGT c = true) →
      tir_tsd_hash r t true =
        some ((∑ k ∈ Finset.range 5,
            (BASE_TO_NUM (r.getD k ' ')).getD 0 * 4 ^ k) +
          ∑ k ∈ Finset.range 3,
            (BASE_TO_NUM (t.getD k ' ')).getD 0 * 4 ^ (5 + k))) := by
  refine ⟨fun r t => ?_, by decide, by decide, fun r t hr ht hall => ?_⟩
  · rw [tir_tsd_hash_true, tir_tsd_hash_false, reverse_complement_involutive]
  · have hrACGT : ∀ c ∈ r, isACGT c = true := fun c hc =>
      hall c (List.mem_append_left _ hc)
    have htACGT : ∀ c ∈ t, isACGT c = true := fun c hc =>
      hall c (List.mem_append_right _ hc)
    rw [tir_tsd_hash_true,
      hashFrom_eq_sum r 0 hrACGT, hashFrom_eq_sum t r.length htACGT, hr, ht]
    simp

/-- Witness for C2 at the concrete remainder/TSD from the spec. -/
theorem C2_witness :
    tir_tsd_hash "AAAAA".toList "CCC".toList true =
      some ((∑ k ∈ Finset.range 5,
          (BASE_TO_NUM ("AAAAA".toList.getD k ' ')).getD 0 * 4 ^ k) +
        ∑ k ∈ Finset.range 3,
          (BASE_TO_NUM ("CCC".toList.getD k ' ')).getD 0 * 4 ^ (5 + k)) :=
  C2_hash_canonicalization.2.2.2 "AAAAA".toList "CCC".toList (by decide)
    (by decide) (by decide)

/-! ### The boundary validator (claim C4) -/

/-- C4.  `tir_tsd_condensed` rejects an opening occurrence exactly when
`position < 3` or `sequence_length < position + 10`, a closing occurrence
exactly when `sequence_length < position + 8` or `position < 5`; in
particular an opening occurrence at position 2 and a closing occurrence at
position `sequence_length - 7` are always rejected. -/
theorem C4_condensed_characterization :
    (∀ pos n, tir_tsd_condensed pos n true = true ↔ pos < 3 ∨ n < pos + 10) ∧
    (∀ pos n, tir_tsd_condensed pos n false = true ↔ n < pos + 8 ∨ pos < 5) ∧
    (∀ n, tir_tsd_condensed 2 n true = true) ∧
    (∀ n, 7 ≤ n → tir_tsd_condensed (n - 7) n false = true) := by
  refine ⟨fun pos n => ?_, fun pos n => ?_, fun n => ?_, fun n h => ?_⟩
  · simp [tir_tsd_condensed]
  · simp [tir_tsd_condensed]
  · simp [tir_tsd_condensed]
  · simp [tir_tsd_condensed]; omega

/-- Witness for C4: a closing occurrence at position 13 of a 20-symbol
sequence (`20 - 7`) is rejected. -/
theorem C4_witness : tir_tsd_condensed (20 - 7) 20 false = true :=
  C4_condensed_characterization.2.2.2 20 (by decide)

/-! ### Configuration validation (claim C8) -/

/-- C8 counterexample: the validator accepts `min_len = 23018` together
with `max_len = 50` even though `min_len > max_len`; `parse_arguments`
checks each bound interval separately and never compares the two. -/
theorem C8_counterexample :
    accepts_lengths 23018 50 = true ∧ (50 : Int) < 23018 := by
  constructor
  · rfl
  · decide

/-- C8 (amended).  `parse_arguments` accepts a `(min_len, max_len)`
configuration iff `50 ≤ min_len ≤ 23018` and `50 ≤ max_len ≤ 30000`
(each validated independently); accepted values are therefore always
positive, but `min_len ≤ max_len` is not enforced. -/
theorem C8_accepts_iff :
    ∀ minLen maxLen : Int,
      (accepts_lengths minLen maxLen = true ↔
        (50 ≤ minLen ∧ minLen ≤ 23018 ∧ 50 ≤ maxLen ∧ maxLen ≤ 30000)) ∧
      (accepts_lengths minLen maxLen = true → 0 < minLen ∧ 0 < maxLen) := by
  intro minLen maxLen
  have hiff : accepts_lengths minLen maxLen = true ↔
      (50 ≤ minLen ∧ minLen ≤ 23018 ∧ 50 ≤ maxLen ∧ maxLen ≤ 30000) := by
    unfold accepts_lengths validate_min_length validate_max_length validate_arg_bounds
    constructor
    · intro h
      rw [Bool.and_eq_true] at h
      obtain ⟨h1, h2⟩ := h
      split_ifs at h1 h2 with hc1 hc2
      · simp at h1
      · simp at h1
      · simp at h2
      · omega
    · intro h
      rw [Bool.and_eq_true]
      constructor <;> rw [if_neg (by omega)] <;> rfl
  exact ⟨hiff, fun h => by have := hiff.mp h; omega⟩

end Cacta

namespace Cacta

/-! ### Emission facts of the pair matcher (claims C9, C10) -/

lemma matchInner_fst_le (closes : List (Nat × Nat)) (oPos oHash : Nat)
    (minLen maxLen : Int) :
    ∀ fuel i lo acc,
      (matchInner closes oPos oHash minLen maxLen fuel i lo acc).1 ≤ lo + fuel := by
  intro fuel
  induction fuel with
  | zero => intro i lo acc; simp [matchInner]
  | succ fuel ih =>
    intro i lo acc
    simp only [matchInner]
    split_ifs with h1 h2 h3
    · simp
    · have := ih (i + 1) (lo + 1) acc; omega
    · have := ih (i + 1) lo (acc ++ [(oPos, (closes.getD i (0, 0)).1)]); omega
    · have := ih (i + 1) lo acc; omega

/-- Every pair the inner loop appends pairs the current opening position
with the position of a genuine closing occurrence and satisfies both
spacing inequalities and hash equality. -/
lemma matchInner_emitted (closes : List (Nat × Nat)) (oPos oHash : Nat)
    (minLen maxLen : Int) :
    ∀ fuel i lo acc pr, i + fuel ≤ closes.length →
      pr ∈ (matchInner closes oPos oHash minLen maxLen fuel i lo acc).2 →
      pr ∈ acc ∨
        (pr.1 = oPos ∧ (oPos : Int) + minLen ≤ (pr.2 : Int) + 4 ∧
          (pr.2 : Int) ≤ (oPos : Int) + maxLen ∧
          ∃ c ∈ closes, c.1 = pr.2 ∧ c.2 = oHash) := by
  intro fuel
  induction fuel with
  | zero => intro i lo acc pr _ hpr; exact Or.inl hpr
  | succ fuel ih =>
    intro i lo acc pr hle hpr
    simp only [matchInner] at hpr
    split_ifs at hpr with h1 h2 h3
    · exact Or.inl hpr
    · exact ih (i + 1) (lo + 1) acc pr (by omega) hpr
    · rcases ih (i + 1) lo _ pr (by omega) hpr with hin | hfacts
      · rcases List.mem_append.mp hin with hin | hin
        · exact Or.inl hin
        · right
          have hi : i < closes.length := by omega
          have hc : closes.getD i (0, 0) = closes[i] := by
            rw [List.getD_eq_getElem?_getD, List.getElem?_eq_getElem hi,
              Option.getD_some]
          have hpr_eq : pr = (oPos, (closes.getD i (0, 0)).1) :=
            List.mem_singleton.mp hin
          subst hpr_eq
          rw [hc] at h1 h2 h3 ⊢
          refine ⟨rfl, by omega, by omega,
            ⟨closes[i], List.mem_iff_getElem.mpr ⟨i, hi, rfl⟩, rfl, h3.symm⟩⟩
      · exact Or.inr hfacts
    · rcases ih (i + 1) lo acc pr (by omega) hpr with hin | hfacts
      · exact Or.inl hin
      · exact Or.inr hfacts

lemma matchOuter_emitted (closes : List (Nat × Nat)) (minLen maxLen : Int) :
    ∀ opens lo acc pr, lo ≤ closes.length →
      pr ∈ matchOuter closes minLen maxLen opens lo acc →
      pr ∈ acc ∨
        ∃ o ∈ opens, pr.1 = o.1 ∧ (o.1 : Int) + minLen ≤ (pr.2 : Int) + 4 ∧
          (pr.2 : Int) ≤ (o.1 : Int) + maxLen ∧
          ∃ c ∈ closes, c.1 = pr.2 ∧ c.2 = o.2 := by
  intro opens
  induction opens with
  | nil => intro lo acc pr _ hpr; exact Or.inl hpr
  | cons o rest ih =>
    intro lo acc pr hlo hpr
    simp only [matchOuter] at hpr
    have hlo2 :
        (matchInner closes o.1 o.2 minLen maxLen (closes.length - lo) lo lo acc).1
          ≤ closes.length := by
      have := matchInner_fst_le closes o.1 o.2 minLen maxLen
        (closes.length - lo) lo lo acc
      omega
    rcases ih _ _ pr hlo2 hpr with hin | ⟨o2, ho2, hf⟩
    · rcases matchInner_emitted closes o.1 o.2 minLen maxLen
        (closes.length - lo) lo lo acc pr (by omega) hin with h | hf
      · exact Or.inl h
      · exact Or.inr ⟨o, List.mem_cons_self o rest, hf⟩
    · exact Or.inr ⟨o2, List.mem_cons_of_mem o ho2, hf⟩

/-- Every emitted pair of `filter_matching_tirs` comes from an opening
and a closing occurrence of the input lists, with equal hashes and both
spacing inequalities satisfied. -/
lemma filter_matching_tirs_emitted (opens closes : List (Nat × Nat))
    (minLen maxLen : Int) :
    ∀ pr ∈ filter_matching_tirs opens closes minLen maxLen,
      ∃ o ∈ opens, pr.1 = o.1 ∧ (o.1 : Int) + minLen ≤ (pr.2 : Int) + 4 ∧
        (pr.2 : Int) ≤ (o.1 : Int) + maxLen ∧
        ∃ c ∈ closes, c.1 = pr.2 ∧ c.2 = o.2 := by
  intro pr hpr
  rcases matchOuter_emitted closes minLen maxLen opens 0 [] pr
    (Nat.zero_le _) hpr with h | h
  · simp at h
  · exact h

/-- C9.  Every pair returned by `filter_matching_tirs` satisfies the
length-window lower bound `closing + 4 ≥ opening + min_length`; whenever
`min_length ≥ 4` this forces `closing ≥ opening`, and whenever
`min_length ≥ 50` even `closing ≥ opening + 46`; the argument validator
only accepts `min_len ≥ 50`. -/
theorem C9_pair_positions_ordered :
    (∀ opens closes (minLen maxLen : Int) pr,
        pr ∈ filter_matching_tirs opens closes minLen maxLen →
        (pr.1 : Int) + minLen ≤ (pr.2 : Int) + 4) ∧
    (∀ opens closes (minLen maxLen : Int) pr, 4 ≤ minLen →
        pr ∈ filter_matching_tirs opens closes minLen maxLen →
        pr.1 ≤ pr.2) ∧
    (∀ opens closes (minLen maxLen : Int) pr, 50 ≤ minLen →
        pr ∈ filter_matching_tirs opens closes minLen maxLen →
        pr.1 + 46 ≤ pr.2) ∧
    (∀ n m : Int, validate_min_length n = some m → 50 ≤ m ∧ 4 ≤ m) := by
  refine ⟨fun opens closes minLen maxLen pr hpr => ?_,
    fun opens closes minLen maxLen pr h4 hpr => ?_,
    fun opens closes minLen maxLen pr h50 hpr => ?_,
    fun n m hv => ?_⟩
  · obtain ⟨o, _, he, hlow, _⟩ :=
      filter_matching_tirs_emitted opens closes minLen maxLen pr hpr
    rw [he]; exact hlow
  · obtain ⟨o, _, he, hlow, _⟩ :=
      filter_matching_tirs_emitted opens closes minLen maxLen pr hpr
    omega
  · obtain ⟨o, _, he, hlow, _⟩ :=
      filter_matching_tirs_emitted opens closes minLen maxLen pr hpr
    omega
  · unfold validate_min_length validate_arg_bounds at hv
    split_ifs at hv with h
    simp only [Option.some_inj] at hv
    omega

/-- Witness for C9 at a run of the matcher with an accepted minimum
length. -/
theorem C9_witness :
    (3 : Nat) ≤ 50 ∧ (3 : Nat) + 46 ≤ 50 ∧ (50 : Int) ≤ 50 :=
  ⟨C9_pair_positions_ordered.2.1 [(3, 43008)] [(50, 43008)] 50 23018 (3, 50)
      (by decide) (by decide),
    C9_pair_positions_ordered.2.2.1 [(3, 43008)] [(50, 43008)] 50 23018 (3, 50)
      (by decide) (by decide),
    (C9_pair_positions_ordered.2.2.2 50 50 (by decide)).1⟩

end Cacta

namespace Cacta

/-! ### Exactness of the amortized pair matcher (claim C1) -/

/-- One inner scan, started at the shared cursor, appends exactly the
brute-force row of its opening occurrence restricted to `closes.drop i`,
and leaves the cursor pointing only past closing occurrences that fail
the lower spacing bound for this opening position. -/
lemma matchInner_spec (closes : List (Nat × Nat))
    (hcl : List.Pairwise (fun a b : Nat × Nat => a.1 ≤ b.1) closes)
    (oPos oHash : Nat) (minLen maxLen : Int) :
    ∀ fuel i lo acc, i + fuel = closes.length → lo ≤ i →
      (matchInner closes oPos oHash minLen maxLen fuel i lo acc).2 =
        acc ++ (closes.drop i).filterMap (fun c =>
          if oHash = c.2 ∧ (oPos : Int) + minLen ≤ (c.1 : Int) + 4 ∧
              (c.1 : Int) ≤ (oPos : Int) + maxLen then some (oPos, c.1)
          else none) ∧
      lo ≤ (matchInner closes oPos oHash minLen maxLen fuel i lo acc).1 ∧
      ((∀ q, q < lo → ((closes.getD q (0, 0)).1 : Int) + 4 < (oPos : Int) + minLen) →
        ∀ q, q < (matchInner closes oPos oHash minLen maxLen fuel i lo acc).1 →
          ((closes.getD q (0, 0)).1 : Int) + 4 < (oPos : Int) + minLen) := by
  intro fuel
  induction fuel with
  | zero =>
    intro i lo acc hlen _hlo
    have hi : i = closes.length := by omega
    subst hi
    simp [matchInner, List.drop_length]
  | succ fuel ih =>
    intro i lo acc hlen hlo
    have hi : i < closes.length := by omega
    have hc : closes.getD i (0, 0) = closes[i] := by
      rw [List.getD_eq_getElem?_getD, List.getElem?_eq_getElem hi, Option.getD_some]
    have hdrop : closes.drop i = closes[i] :: closes.drop (i + 1) :=
      List.drop_eq_getElem_cons hi
    have hsorted : ∀ k, i ≤ k → (hk : k < closes.length) →
        (closes[i].1 : Nat) ≤ closes[k].1 := by
      intro k hik hk
      rcases Nat.eq_or_lt_of_le hik with rfl | hik2
      · exact le_refl _
      · exact List.pairwise_iff_getElem.mp hcl i k hi hk hik2
    simp only [matchInner]
    split_ifs with h1 h2 h3
    · -- break: every remaining closing occurrence violates the upper bound
      rw [hc] at h1
      refine ⟨?_, le_refl lo, fun hinv => hinv⟩
      have hnil : (closes.drop i).filterMap (fun c =>
          if oHash = c.2 ∧ (oPos : Int) + minLen ≤ (c.1 : Int) + 4 ∧
              (c.1 : Int) ≤ (oPos : Int) + maxLen then some (oPos, c.1)
          else none) = [] := by
        rw [List.filterMap_eq_nil_iff]
        intro x hx
        obtain ⟨k, hk, hkx⟩ := List.mem_iff_getElem.mp hx
        have hik : i + k < closes.length := by
          have hklen := hk
          simp only [List.length_drop] at hklen
          omega
        have hdk : (closes.drop i)[k] = closes[i + k] := List.getElem_drop closes
        have hkx2 : closes[i + k] = x := by rw [← hdk, hkx]
        have hle : (closes[i].1 : Nat) ≤ closes[i + k].1 :=
          hsorted (i + k) (by omega) hik
        rw [if_neg]
        rw [hkx2] at hle
        intro hcon
        have := hcon.2.2
        omega
      rw [hnil]
      simp
    · -- the lower spacing bound fails: the cursor advances permanently
      rw [hc] at h1 h2
      obtain ⟨ha, hb, hinv⟩ := ih (i + 1) (lo + 1) acc (by omega) (by omega)
      refine ⟨?_, by omega, ?_⟩
      · rw [ha, hdrop, List.filterMap_cons]
        rw [if_neg]
        intro hcon
        have := hcon.2.1
        omega
      · intro hq q hql
        refine hinv ?_ q hql
        intro q2 hq2
        rcases Nat.lt_or_ge q2 lo with hq3 | hq3
        · exact hq q2 hq3
        · have hq4 : q2 = lo := by omega
          subst hq4
          have hlo2 : q2 < closes.length := by omega
          have : (closes.getD q2 (0, 0)) = closes[q2] := by
            rw [List.getD_eq_getElem?_getD, List.getElem?_eq_getElem hlo2,
              Option.getD_some]
          rw [this]
          have hle : (closes[q2].1 : Nat) ≤ closes[i].1 := by
            rcases Nat.eq_or_lt_of_le hlo with heq | hlt
            · subst heq; exact le_refl _
            · exact List.pairwise_iff_getElem.mp hcl q2 i hlo2 hi (by omega)
          omega
    · -- hashes agree inside the window: the pair is emitted
      rw [hc] at h1 h2 h3
      obtain ⟨ha, hb, hinv⟩ := ih (i + 1) lo (acc ++ [(oPos, (closes.getD i (0, 0)).1)])
        (by omega) (by omega)
      refine ⟨?_, hb, hinv⟩
      rw [ha, hdrop, List.filterMap_cons, hc, if_pos ⟨h3, by omega, by omega⟩]
      simp
    · -- hash mismatch inside the window: nothing is emitted
      rw [hc] at h1 h2 h3
      obtain ⟨ha, hb, hinv⟩ := ih (i + 1) lo acc (by omega) (by omega)
      refine ⟨?_, hb, hinv⟩
      rw [ha, hdrop, List.filterMap_cons]
      rw [if_neg]
      intro hcon
      exact h3 hcon.1

end Cacta

namespace Cacta

/-- The outer loop, entered with a cursor that only skips closing
occurrences failing the lower spacing bound for every remaining opening
occurrence, appends exactly the concatenated brute-force rows. -/
lemma matchOuter_spec (closes : List (Nat × Nat))
    (hcl : List.Pairwise (fun a b : Nat × Nat => a.1 ≤ b.1) closes)
    (minLen maxLen : Int) :
    ∀ opens lo acc,
      List.Pairwise (fun a b : Nat × Nat => a.1 ≤ b.1) opens →
      lo ≤ closes.length →
      (∀ o ∈ opens, ∀ q, q < lo →
        ((closes.getD q (0, 0)).1 : Int) + 4 < (o.1 : Int) + minLen) →
      matchOuter closes minLen maxLen opens lo acc =
        acc ++ opens.flatMap (fun o => closes.filterMap (fun c =>
          if o.2 = c.2 ∧ (o.1 : Int) + minLen ≤ (c.1 : Int) + 4 ∧
              (c.1 : Int) ≤ (o.1 : Int) + maxLen then some (o.1, c.1)
          else none)) := by
  intro opens
  induction opens with
  | nil => intro lo acc _ _ _; simp [matchOuter]
  | cons o rest ih =>
    intro lo acc hpw hlo hinv
    obtain ⟨hhead, hrest⟩ := List.pairwise_cons.mp hpw
    obtain ⟨ha, hb, hstep⟩ := matchInner_spec closes hcl o.1 o.2 minLen maxLen
      (closes.length - lo) lo lo acc (by omega) (le_refl lo)
    have hfst_le := matchInner_fst_le closes o.1 o.2 minLen maxLen
      (closes.length - lo) lo lo acc
    have hinv_o : ∀ q, q < lo →
        ((closes.getD q (0, 0)).1 : Int) + 4 < (o.1 : Int) + minLen :=
      hinv o (List.mem_cons_self o rest)
    have hstep2 := hstep hinv_o
    have htake : (closes.take lo).filterMap (fun c =>
        if o.2 = c.2 ∧ (o.1 : Int) + minLen ≤ (c.1 : Int) + 4 ∧
            (c.1 : Int) ≤ (o.1 : Int) + maxLen then some (o.1, c.1)
        else none) = [] := by
      rw [List.filterMap_eq_nil_iff]
      intro x hx
      obtain ⟨q, hq, hqx⟩ := List.mem_take_iff_getElem.mp hx
      have hql : q < lo := lt_of_lt_of_le hq inf_le_left
      have hqlen : q < closes.length := lt_of_lt_of_le hq inf_le_right
      have hgd : closes.getD q (0, 0) = closes[q] := by
        rw [List.getD_eq_getElem?_getD, List.getElem?_eq_getElem hqlen,
          Option.getD_some]
      have hfail := hinv_o q hql
      rw [hgd, hqx] at hfail
      rw [if_neg]
      intro hcon
      have := hcon.2.1
      omega
    have hrow : closes.filterMap (fun c =>
        if o.2 = c.2 ∧ (o.1 : Int) + minLen ≤ (c.1 : Int) + 4 ∧
            (c.1 : Int) ≤ (o.1 : Int) + maxLen then some (o.1, c.1)
        else none) =
        (closes.drop lo).filterMap (fun c =>
          if o.2 = c.2 ∧ (o.1 : Int) + minLen ≤ (c.1 : Int) + 4 ∧
              (c.1 : Int) ≤ (o.1 : Int) + maxLen then some (o.1, c.1)
          else none) := by
      conv => lhs; rw [← List.take_append_drop lo closes]
      rw [List.filterMap_append, htake, List.nil_append]
    have hinv2 : ∀ o2 ∈ rest, ∀ q,
        q < (matchInner closes o.1 o.2 minLen maxLen (closes.length - lo) lo lo acc).1 →
        ((closes.getD q (0, 0)).1 : Int) + 4 < (o2.1 : Int) + minLen := by
      intro o2 ho2 q hq
      have hfail := hstep2 q hq
      have h12 : (o.1 : Nat) ≤ o2.1 := hhead o2 ho2
      have h12i : (o.1 : Int) ≤ (o2.1 : Int) := by exact_mod_cast h12
      omega
    simp only [matchOuter]
    rw [ih (matchInner closes o.1 o.2 minLen maxLen (closes.length - lo) lo lo acc).1
      (matchInner closes o.1 o.2 minLen maxLen (closes.length - lo) lo lo acc).2
      hrest (by omega) hinv2]
    rw [ha, List.flatMap_cons, hrow, ← List.append_assoc]

/-- C1.  On position-sorted occurrence lists, `filter_matching_tirs`
with its shared monotonically advancing cursor returns exactly the pairs
of the brute-force nested loop over all (open, close) combinations:
hash equality plus the two spacing inequalities, in the same order. -/
theorem C1_matcher_equals_bruteforce :
    ∀ opens closes (minLen maxLen : Int),
      List.Pairwise (fun a b : Nat × Nat => a.1 ≤ b.1) opens →
      List.Pairwise (fun a b : Nat × Nat => a.1 ≤ b.1) closes →
      filter_matching_tirs opens closes minLen maxLen =
        bruteForceMatchingTirs opens closes minLen maxLen := by
  intro opens closes minLen maxLen hop hcl
  unfold filter_matching_tirs bruteForceMatchingTirs
  rw [matchOuter_spec closes hcl minLen maxLen opens 0 [] hop (Nat.zero_le _)
    (fun o _ q hq => absurd hq (Nat.not_lt_zero q))]
  rw [List.nil_append]

/-- Witness for C1 on sorted lists that exercise hash mismatch, cursor
advance and the length window. -/
theorem C1_witness :
    filter_matching_tirs [(3, 43008), (10, 7)] [(50, 43008), (52, 7)] 50 23018 =
      bruteForceMatchingTirs [(3, 43008), (10, 7)] [(50, 43008), (52, 7)] 50 23018 :=
  C1_matcher_equals_bruteforce [(3, 43008), (10, 7)] [(50, 43008), (52, 7)]
    50 23018 (by decide) (by decide)

end Cacta

namespace Cacta

/-! ### The candidate assembler (claims C5, C7, C10) -/

/-- `extract_tir_info` only appends a suffix to the title and returns
the sequence unchanged. -/
lemma extract_tir_info_shape (aligner : List Char → List Char → Nat × Nat × Nat)
    (title : String) (seq : List Char) (len : Nat) :
    ∃ suffix : String,
      extract_tir_info aligner (title, seq) len = (title ++ suffix, seq) :=
  ⟨_, rfl⟩

lemma retrieve_candidates_counts (aligner : List Char → List Char → Nat × Nat × Nat)
    (record : String × List Char) (tirInfo : Bool) (seqId : Nat) :
    ∀ matching elements cid,
      (retrieve_candidates aligner record matching tirInfo elements seqId cid).1.length
        = elements.length + matching.length ∧
      (retrieve_candidates aligner record matching tirInfo elements seqId cid).2
        = cid + matching.length := by
  intro matching
  induction matching with
  | nil => intro elements cid; simp [retrieve_candidates]
  | cons oc rest ih =>
    intro elements cid
    obtain ⟨o, c⟩ := oc
    simp only [retrieve_candidates]
    obtain ⟨h1, h2⟩ := ih _ (cid + 1)
    constructor
    · rw [h1]; simp; omega
    · rw [h2]; simp; omega

/-- Candidates already accumulated are left untouched (the list is only
appended to). -/
lemma retrieve_candidates_pres (aligner : List Char → List Char → Nat × Nat × Nat)
    (record : String × List Char) (tirInfo : Bool) (seqId : Nat) :
    ∀ matching elements cid k, k < elements.length →
      (retrieve_candidates aligner record matching tirInfo elements seqId cid).1[k]?
        = elements[k]? := by
  intro matching
  induction matching with
  | nil => intro elements cid k _; rfl
  | cons oc rest ih =>
    intro elements cid k hk
    obtain ⟨o, c⟩ := oc
    simp only [retrieve_candidates]
    rw [ih _ (cid + 1) k (by simp; omega)]
    rw [List.getElem?_append, if_pos hk]

/-- The `k`-th confirmed pair of a call contributes exactly one
candidate, at position `elements.length + k`, holding the slice
`record_seq[opening : closing + 5]`, extent `(opening, closing + 5)`,
the record's sequence id, and a title whose numeric part is the `k`-th
successor of the incoming counter (followed by the annotation suffix
only when `tir_info` is set). -/
lemma retrieve_candidates_appended (aligner : List Char → List Char → Nat × Nat × Nat)
    (record : String × List Char) (tirInfo : Bool) (seqId : Nat) :
    ∀ matching elements cid k, k < matching.length →
      ∃ suffix : String,
        (retrieve_candidates aligner record matching tirInfo elements seqId cid).1[elements.length + k]?
          = some ⟨record.1 ++ "_CACTA" ++ toString (cid + k) ++ suffix,
              pySlice record.2 (matching.getD k (0, 0)).1
                ((matching.getD k (0, 0)).2 + 5),
              (matching.getD k (0, 0)).1, (matching.getD k (0, 0)).2 + 5, seqId⟩ ∧
        (tirInfo = false → suffix = "") := by
  intro matching
  induction matching with
  | nil => intro elements cid k hk; exact absurd hk (Nat.not_lt_zero k)
  | cons oc rest ih =>
    intro elements cid k hk
    obtain ⟨o, c⟩ := oc
    cases k with
    | zero =>
      simp only [retrieve_candidates, List.getD_cons_zero, Nat.add_zero]
      cases tirInfo with
      | false =>
        rw [retrieve_candidates_pres aligner record false seqId rest _ (cid + 1)
          elements.length (by simp)]
        refine ⟨"", ?_, fun _ => rfl⟩
        rw [if_neg (by simp)]
        rw [List.getElem?_concat_length]
        rw [String.append_empty]
      | true =>
        rw [retrieve_candidates_pres aligner record true seqId rest _ (cid + 1)
          elements.length (by simp)]
        rw [if_pos rfl]
        obtain ⟨suffix, hex⟩ := extract_tir_info_shape aligner
          (record.1 ++ "_CACTA" ++ toString cid) (pySlice record.2 o (c + 5)) 28
        refine ⟨suffix, ?_, fun hcon => by cases hcon⟩
        rw [hex, List.getElem?_concat_length]
    | succ k =>
      have hk2 : k < rest.length := by simp at hk; omega
      obtain ⟨suffix, hs, hcond⟩ := ih (elements ++
        [⟨(if tirInfo then extract_tir_info aligner
              (record.1 ++ "_CACTA" ++ toString cid,
                pySlice record.2 o (c + 5)) 28
            else (record.1 ++ "_CACTA" ++ toString cid,
              pySlice record.2 o (c + 5))).1,
          (if tirInfo then extract_tir_info aligner
              (record.1 ++ "_CACTA" ++ toString cid,
                pySlice record.2 o (c + 5)) 28
            else (record.1 ++ "_CACTA" ++ toString cid,
              pySlice record.2 o (c + 5))).2,
          o, c + 5, seqId⟩]) (cid + 1) k hk2
      refine ⟨suffix, ?_, hcond⟩
      simp only [retrieve_candidates, List.getD_cons_succ]
      have hidx : elements.length + (k + 1) =
          (elements ++ [(⟨(if tirInfo then extract_tir_info aligner
              (record.1 ++ "_CACTA" ++ toString cid,
                pySlice record.2 o (c + 5)) 28
            else (record.1 ++ "_CACTA" ++ toString cid,
              pySlice record.2 o (c + 5))).1,
          (if tirInfo then extract_tir_info aligner
              (record.1 ++ "_CACTA" ++ toString cid,
                pySlice record.2 o (c + 5)) 28
            else (record.1 ++ "_CACTA" ++ toString cid,
              pySlice record.2 o (c + 5))).2,
          o, c + 5, seqId⟩ : Candidate)]).length + k := by
        simp
        omega
      have hcid : cid + 1 + k = cid + (k + 1) := by omega
      rw [← hidx, hcid] at hs
      exact hs

end Cacta

namespace Cacta

/-- C5.  `retrieve_candidates` appends exactly one candidate per
confirmed pair, in order: the `k`-th pair `(opening, closing)` yields
the candidate at index `elements.length + k`, whose sequence is the
slice `record_sequence[opening : closing + 5]` (closing motif length 5),
whose recorded extent is `(opening, closing + 5)`, and whose title
carries the `k`-th successor of the incoming identifier counter; the
counter leaves the call advanced by exactly the number of pairs. -/
theorem C5_candidate_assembly :
    ∀ (aligner : List Char → List Char → Nat × Nat × Nat)
      (record : String × List Char) (matching : List (Nat × Nat))
      (tirInfo : Bool) (elements : List Candidate) (seqId cid : Nat),
      (retrieve_candidates aligner record matching tirInfo elements seqId cid).1.length
        = elements.length + matching.length ∧
      (retrieve_candidates aligner record matching tirInfo elements seqId cid).2
        = cid + matching.length ∧
      ∀ k, k < matching.length →
        ∃ suffix : String,
          (retrieve_candidates aligner record matching tirInfo elements
              seqId cid).1[elements.length + k]?
            = some ⟨record.1 ++ "_CACTA" ++ toString (cid + k) ++ suffix,
                pySlice record.2 (matching.getD k (0, 0)).1
                  ((matching.getD k (0, 0)).2 + 5),
                (matching.getD k (0, 0)).1, (matching.getD k (0, 0)).2 + 5,
                seqId⟩ ∧
          (tirInfo = false → suffix = "") := by
  intro aligner record matching tirInfo elements seqId cid
  obtain ⟨h1, h2⟩ := retrieve_candidates_counts aligner record tirInfo seqId
    matching elements cid
  exact ⟨h1, h2, fun k hk =>
    retrieve_candidates_appended aligner record tirInfo seqId matching
      elements cid k hk⟩

/-- Witness for C5: the single confirmed pair of the demo genome yields
the candidate `rec_CACTA1` with slice `demoSeq[3:55]`. -/
theorem C5_witness :
    ∃ suffix : String,
      (retrieve_candidates nullAligner ("rec", demoSeq) [(3, 50)] false [] 1 1).1[0]?
        = some ⟨"rec" ++ "_CACTA" ++ toString 1 ++ suffix,
            pySlice demoSeq 3 55, 3, 55, 1⟩ ∧
      (false = false → suffix = "") :=
  (C5_candidate_assembly nullAligner ("rec", demoSeq) [(3, 50)] false [] 1 1).2.2
    0 (by decide)

end Cacta

namespace Cacta

/-- `retrieve_candidates` preserves the run invariant: the counter
always reads one past the number of accumulated candidates, and the
candidate at index `k` carries the numeric identifier `k + 1` in its
title. -/
lemma retrieve_candidates_inv (aligner : List Char → List Char → Nat × Nat × Nat)
    (record : String × List Char) (matching : List (Nat × Nat))
    (tirInfo : Bool) (seqId : Nat) (elements : List Candidate) (cid : Nat)
    (hcid : cid = elements.length + 1)
    (htl : ∀ k, k < elements.length → ∃ rt suffix : String, ∃ cand : Candidate,
        elements[k]? = some cand ∧
        cand.title = rt ++ "_CACTA" ++ toString (k + 1) ++ suffix ∧
        (tirInfo = false → suffix = "")) :
    (retrieve_candidates aligner record matching tirInfo elements seqId cid).2
      = (retrieve_candidates aligner record matching tirInfo elements seqId cid).1.length + 1 ∧
    ∀ k, k < (retrieve_candidates aligner record matching tirInfo elements seqId cid).1.length →
      ∃ rt suffix : String, ∃ cand : Candidate,
        (retrieve_candidates aligner record matching tirInfo elements seqId cid).1[k]?
          = some cand ∧
        cand.title = rt ++ "_CACTA" ++ toString (k + 1) ++ suffix ∧
        (tirInfo = false → suffix = "") := by
  obtain ⟨hlen, hc2⟩ := retrieve_candidates_counts aligner record tirInfo seqId
    matching elements cid
  constructor
  · rw [hlen, hc2]; omega
  · intro k hk
    rw [hlen] at hk
    rcases Nat.lt_or_ge k elements.length with hlt | hge
    · obtain ⟨rt, suffix, cand, h1, h2, h3⟩ := htl k hlt
      exact ⟨rt, suffix, cand,
        by rw [retrieve_candidates_pres aligner record tirInfo seqId matching
          elements cid k hlt]; exact h1, h2, h3⟩
    · have hj : k - elements.length < matching.length := by omega
      obtain ⟨suffix, hs, hcond⟩ := retrieve_candidates_appended aligner record
        tirInfo seqId matching elements cid (k - elements.length) hj
      have hidx : elements.length + (k - elements.length) = k := by omega
      have hcnt : cid + (k - elements.length) = k + 1 := by omega
      rw [hidx, hcnt] at hs
      exact ⟨record.1, suffix, _, hs, rfl, hcond⟩

/-- The per-record, per-family steps and the whole orchestrator loop
preserve the counter/title invariant. -/
lemma detectAllAux_inv (aligner : List Char → List Char → Nat × Nat × Nat)
    (minLen maxLen : Int) (tirInfo : Bool) :
    ∀ (records : List (String × List Char)) (seqId : Nat)
      (st : List Candidate × Nat),
      st.2 = st.1.length + 1 →
      (∀ k, k < st.1.length → ∃ rt suffix : String, ∃ cand : Candidate,
        st.1[k]? = some cand ∧
        cand.title = rt ++ "_CACTA" ++ toString (k + 1) ++ suffix ∧
        (tirInfo = false → suffix = "")) →
      (detectAllAux aligner minLen maxLen tirInfo records seqId st).2
        = (detectAllAux aligner minLen maxLen tirInfo records seqId st).1.length + 1 ∧
      ∀ k, k < (detectAllAux aligner minLen maxLen tirInfo records seqId st).1.length →
        ∃ rt suffix : String, ∃ cand : Candidate,
          (detectAllAux aligner minLen maxLen tirInfo records seqId st).1[k]?
            = some cand ∧
          cand.title = rt ++ "_CACTA" ++ toString (k + 1) ++ suffix ∧
          (tirInfo = false → suffix = "") := by
  intro records
  induction records with
  | nil => intro seqId st h1 h2; exact ⟨h1, h2⟩
  | cons record rest ih =>
    intro seqId st h1 h2
    obtain ⟨h3, h4⟩ := retrieve_candidates_inv aligner record
      (filter_matching_tirs (find_all_tirs "CACTA".toList record.2 true)
        (find_all_tirs "TAGTG".toList record.2 false) minLen maxLen)
      tirInfo seqId st.1 st.2 h1 h2
    obtain ⟨h5, h6⟩ := retrieve_candidates_inv aligner record
      (filter_matching_tirs (find_all_tirs "CACTG".toList record.2 true)
        (find_all_tirs "CAGTG".toList record.2 false) minLen maxLen)
      tirInfo seqId
      (detect_cacta aligner record minLen maxLen tirInfo st.1 seqId st.2).1
      (detect_cacta aligner record minLen maxLen tirInfo st.1 seqId st.2).2
      h3 h4
    exact ih (seqId + 1) _ h5 h6

/-- C7.  Across a whole run the candidate identifier counter starts at
1, is shared by all records and both motif families, advances by exactly
1 per appended candidate and is never reused: the final counter reads
`total + 1`, and the `k`-th candidate of the run (0-based, any record,
either family) carries the numeric identifier `k + 1` in its title, so
identifiers strictly increase in append order. -/
theorem C7_counter_monotonic :
    ∀ (aligner : List Char → List Char → Nat × Nat × Nat)
      (minLen maxLen : Int) (tirInfo : Bool)
      (records : List (String × List Char)),
      (detect_all_candidates aligner minLen maxLen tirInfo records).2
        = (detect_all_candidates aligner minLen maxLen tirInfo records).1.length + 1 ∧
      ∀ k, k < (detect_all_candidates aligner minLen maxLen tirInfo records).1.length →
        ∃ rt suffix : String, ∃ cand : Candidate,
          (detect_all_candidates aligner minLen maxLen tirInfo records).1[k]?
            = some cand ∧
          cand.title = rt ++ "_CACTA" ++ toString (k + 1) ++ suffix ∧
          (tirInfo = false → suffix = "") := by
  intro aligner minLen maxLen tirInfo records
  exact detectAllAux_inv aligner minLen maxLen tirInfo records 1 ([], 1) rfl
    (fun k hk => absurd hk (Nat.not_lt_zero k))

/-- Witness for C7: the demo run yields one candidate named
`rec_CACTA1` and leaves the counter at 2. -/
theorem C7_witness :
    ∃ rt suffix : String, ∃ cand : Candidate,
      (detect_all_candidates nullAligner 50 23018 false [("rec", demoSeq)]).1[0]?
        = some cand ∧
      cand.title = rt ++ "_CACTA" ++ toString (0 + 1) ++ suffix ∧
      (false = false → suffix = "") :=
  (C7_counter_monotonic nullAligner 50 23018 false [("rec", demoSeq)]).2 0 (by decide)

end Cacta

namespace Cacta

/-! ### Occurrence membership facts (claims C6, C10) -/

lemma processOccurrence_some {s : List Char} {opening : Bool} {pos : Nat}
    {occ : Nat × Nat} (h : processOccurrence s opening pos = some occ) :
    occ.1 = pos ∧ tir_tsd_condensed pos s.length opening = false ∧
    ((if opening then pySlice s (pos + 5) (pos + 10) else pySlice s (pos - 5) pos) ++
      (if opening then pySlice s (pos - 3) pos else pySlice s (pos + 5) (pos + 8))).all
        isACGT = true ∧
    tir_tsd_hash
      (if opening then pySlice s (pos + 5) (pos + 10) else pySlice s (pos - 5) pos)
      (if opening then pySlice s (pos - 3) pos else pySlice s (pos + 5) (pos + 8))
      opening = some occ.2 := by
  simp only [processOccurrence] at h
  by_cases h1 : tir_tsd_condensed pos s.length opening = true
  · rw [if_pos h1] at h
    exact absurd h (by simp)
  · rw [if_neg h1] at h
    by_cases h2 : ((if opening then pySlice s (pos + 5) (pos + 10)
          else pySlice s (pos - 5) pos) ++
        (if opening then pySlice s (pos - 3) pos
          else pySlice s (pos + 5) (pos + 8))).all isACGT = true
    · rw [if_pos h2] at h
      obtain ⟨a, hx, hfa⟩ := Option.map_eq_some'.mp h
      subst hfa
      have hcond : tir_tsd_condensed pos s.length opening = false := by
        cases hB : tir_tsd_condensed pos s.length opening
        · rfl
        · exact absurd hB h1
      exact ⟨rfl, hcond, h2, hx⟩
    · rw [if_neg h2] at h
      exact absurd h (by simp)

lemma processOccurrence_bounds {s : List Char} {opening : Bool} {pos : Nat}
    {occ : Nat × Nat} (h : processOccurrence s opening pos = some occ) :
    (opening = true → 3 ≤ pos ∧ pos + 10 ≤ s.length) ∧
    (opening = false → 5 ≤ pos ∧ pos + 8 ≤ s.length) := by
  have hcond := (processOccurrence_some h).2.1
  constructor
  · intro hop
    subst hop
    simp [tir_tsd_condensed] at hcond
    omega
  · intro hop
    subst hop
    simp [tir_tsd_condensed] at hcond
    omega

/-- Every occurrence the scan records was accepted by
`processOccurrence` at its own position. -/
lemma findAllTirsAux_mem (tir s : List Char) (opening : Bool) (table : List Nat) :
    ∀ fuel i j acc occ, occ ∈ findAllTirsAux tir s opening table fuel i j acc →
      occ ∈ acc ∨ ∃ pos, processOccurrence s opening pos = some occ := by
  intro fuel
  induction fuel with
  | zero => intro i j acc occ h; exact Or.inl h
  | succ fuel ih =>
    intro i j acc occ h
    simp only [findAllTirsAux] at h
    split_ifs at h with h1 h2
    · exact ih _ _ _ _ h
    · exact ih _ _ _ _ h
    · rcases hpo : processOccurrence s opening (i + 1 - tir.length) with _ | occ2
      · rw [hpo] at h
        exact ih _ _ _ _ h
      · rw [hpo] at h
        rcases ih _ _ _ _ h with hin | hex
        · rcases List.mem_append.mp hin with hin | hin
          · exact Or.inl hin
          · exact Or.inr ⟨i + 1 - tir.length, by
              rw [hpo, List.mem_singleton.mp hin]⟩
        · exact Or.inr hex

lemma find_all_tirs_mem (tir s : List Char) (opening : Bool) :
    ∀ occ ∈ find_all_tirs tir s opening,
      ∃ pos, processOccurrence s opening pos = some occ := by
  intro occ h
  unfold find_all_tirs at h
  split_ifs at h with h0
  · exact absurd h (List.not_mem_nil occ)
  · rcases findAllTirsAux_mem tir s opening (create_prefix_table tir)
      s.length 0 0 [] occ h with hin | hex
    · exact absurd hin (List.not_mem_nil occ)
    · exact hex

lemma pySlice_length {s : List Char} {a b : Nat} (hb : b ≤ s.length) :
    (pySlice s a b).length = b - a := by
  unfold pySlice
  rw [List.length_drop, List.length_take]
  rw [min_eq_left hb]

end Cacta

namespace Cacta

/-- C6.  Every occurrence surviving into the output of `find_all_tirs`
passed the boundary check, so both its windows lie inside the sequence
(full 5-base remainder and 3-base TSD), its windows are pure ACGT, and
its stored hash is the value `tir_tsd_hash` computed on them; moreover
`tir_tsd_hash` is total on ACGT input, so the undefined-digit branch of
the `BASE_TO_NUM` lookup is unreachable from `find_all_tirs`. -/
theorem C6_hash_never_undefined :
    (∀ tir s opening occ, occ ∈ find_all_tirs tir s opening →
      tir_tsd_condensed occ.1 s.length opening = false ∧
      (opening = true → 3 ≤ occ.1 ∧ occ.1 + 10 ≤ s.length) ∧
      (opening = false → 5 ≤ occ.1 ∧ occ.1 + 8 ≤ s.length) ∧
      (if opening then pySlice s (occ.1 + 5) (occ.1 + 10)
        else pySlice s (occ.1 - 5) occ.1).length = 5 ∧
      (if opening then pySlice s (occ.1 - 3) occ.1
        else pySlice s (occ.1 + 5) (occ.1 + 8)).length = 3 ∧
      (∀ c ∈ (if opening then pySlice s (occ.1 + 5) (occ.1 + 10)
            else pySlice s (occ.1 - 5) occ.1) ++
          (if opening then pySlice s (occ.1 - 3) occ.1
            else pySlice s (occ.1 + 5) (occ.1 + 8)), isACGT c = true) ∧
      tir_tsd_hash
        (if opening then pySlice s (occ.1 + 5) (occ.1 + 10)
          else pySlice s (occ.1 - 5) occ.1)
        (if opening then pySlice s (occ.1 - 3) occ.1
          else pySlice s (occ.1 + 5) (occ.1 + 8)) opening = some occ.2) ∧
    (∀ r t : List Char, ∀ op : Bool,
      (∀ c ∈ r ++ t, isACGT c = true) → (tir_tsd_hash r t op).isSome) := by
  constructor
  · intro tir s opening occ hocc
    obtain ⟨pos, hpo⟩ := find_all_tirs_mem tir s opening occ hocc
    obtain ⟨hfst, hcond, hall, hhash⟩ := processOccurrence_some hpo
    obtain ⟨hbo, hbc⟩ := processOccurrence_bounds hpo
    subst hfst
    refine ⟨hcond, hbo, hbc, ?_, ?_, List.all_eq_true.mp hall, hhash⟩
    · cases opening with
      | true =>
        obtain ⟨hb1, hb2⟩ := hbo rfl
        rw [if_pos rfl, pySlice_length hb2]
        omega
      | false =>
        obtain ⟨hb1, hb2⟩ := hbc rfl
        rw [if_neg (by simp), pySlice_length (by omega)]
        omega
    · cases opening with
      | true =>
        obtain ⟨hb1, hb2⟩ := hbo rfl
        rw [if_pos rfl, pySlice_length (by omega)]
        omega
      | false =>
        obtain ⟨hb1, hb2⟩ := hbc rfl
        rw [if_neg (by simp), pySlice_length (by omega)]
        omega
  · intro r t op hall
    exact tir_tsd_hash_isSome op
      (fun c hc => hall c (List.mem_append_left _ hc))
      (fun c hc => hall c (List.mem_append_right _ hc))

/-- Witness for C6 at the opening occurrence of the demo genome. -/
theorem C6_witness :
    tir_tsd_condensed 3 demoSeq.length true = false ∧
    (true = true → 3 ≤ 3 ∧ 3 + 10 ≤ demoSeq.length) ∧
    (true = false → 5 ≤ 3 ∧ 3 + 8 ≤ demoSeq.length) ∧
    (if true then pySlice demoSeq (3 + 5) (3 + 10)
      else pySlice demoSeq (3 - 5) 3).length = 5 ∧
    (if true then pySlice demoSeq (3 - 3) 3
      else pySlice demoSeq (3 + 5) (3 + 8)).length = 3 ∧
    (∀ c ∈ (if true then pySlice demoSeq (3 + 5) (3 + 10)
          else pySlice demoSeq (3 - 5) 3) ++
        (if true then pySlice demoSeq (3 - 3) 3
          else pySlice demoSeq (3 + 5) (3 + 8)), isACGT c = true) ∧
    tir_tsd_hash
      (if true then pySlice demoSeq (3 + 5) (3 + 10)
        else pySlice demoSeq (3 - 5) 3)
      (if true then pySlice demoSeq (3 - 3) 3
        else pySlice demoSeq (3 + 5) (3 + 8)) true = some 43008 :=
  C6_hash_never_undefined.1 "CACTA".toList demoSeq true (3, 43008) (by decide)

end Cacta

namespace Cacta

/-- Every candidate appended by `retrieve_candidates` records the slice
and extent of one of its confirmed pairs, with the call's sequence id. -/
lemma retrieve_candidates_mem (aligner : List Char → List Char → Nat × Nat × Nat)
    (record : String × List Char) (tirInfo : Bool) (seqId : Nat) :
    ∀ matching elements cid cand,
      cand ∈ (retrieve_candidates aligner record matching tirInfo elements seqId cid).1 →
      cand ∈ elements ∨ ∃ oc ∈ matching,
        cand.seq = pySlice record.2 oc.1 (oc.2 + 5) ∧
        cand.start = oc.1 ∧ cand.stop = oc.2 + 5 ∧ cand.seqId = seqId := by
  intro matching
  induction matching with
  | nil => intro elements cid cand h; exact Or.inl h
  | cons oc rest ih =>
    intro elements cid cand h
    obtain ⟨o, c⟩ := oc
    simp only [retrieve_candidates] at h
    rcases ih _ (cid + 1) cand h with hin | ⟨oc2, hoc2, hf⟩
    · rcases List.mem_append.mp hin with hin | hin
      · exact Or.inl hin
      · right
        refine ⟨(o, c), List.mem_cons_self (o, c) rest, ?_⟩
        have hc : cand = _ := List.mem_singleton.mp hin
        subst hc
        cases tirInfo with
        | false => exact ⟨rfl, rfl, rfl, rfl⟩
        | true =>
          obtain ⟨suffix, hex⟩ := extract_tir_info_shape aligner
            (record.1 ++ "_CACTA" ++ toString cid) (pySlice record.2 o (c + 5)) 28
          refine ⟨?_, rfl, rfl, rfl⟩
          show (if true = true then extract_tir_info aligner
              (record.1 ++ "_CACTA" ++ toString cid,
                pySlice record.2 o (c + 5)) 28
            else (record.1 ++ "_CACTA" ++ toString cid,
              pySlice record.2 o (c + 5))).2 = pySlice record.2 o (c + 5)
          rw [if_pos rfl, hex]
    · exact Or.inr ⟨oc2, List.mem_cons_of_mem (o, c) hoc2, hf⟩

/-- Candidates produced for one motif family of one record delimit
exactly their stored slice and never extend past the record. -/
lemma detect_family_mem (aligner : List Char → List Char → Nat × Nat × Nat)
    (record : String × List Char) (minLen maxLen : Int) (tirInfo : Bool)
    (seqId cid : Nat) (tirO tirC : List Char) (h4 : 4 ≤ minLen)
    (elements : List Candidate) (cand : Candidate)
    (hmem : cand ∈ (retrieve_candidates aligner record
      (filter_matching_tirs (find_all_tirs tirO record.2 true)
        (find_all_tirs tirC record.2 false) minLen maxLen)
      tirInfo elements seqId cid).1) :
    cand ∈ elements ∨
      (cand.seqId = seqId ∧ cand.start ≤ cand.stop ∧
        cand.stop - cand.start = cand.seq.length ∧
        cand.stop ≤ record.2.length) := by
  rcases retrieve_candidates_mem aligner record tirInfo seqId _ elements cid
    cand hmem with hin | ⟨oc, hoc, hseq, hstart, hstop, hsid⟩
  · exact Or.inl hin
  · right
    obtain ⟨o, ho, he1, hlow, hup, c2, hc2, hc2pos, hc2hash⟩ :=
      filter_matching_tirs_emitted (find_all_tirs tirO record.2 true)
        (find_all_tirs tirC record.2 false) minLen maxLen oc hoc
    obtain ⟨pos, hpo⟩ := find_all_tirs_mem tirC record.2 false c2 hc2
    obtain ⟨hb1, hb2⟩ := (processOccurrence_bounds hpo).2 rfl
    have hc2fst : c2.1 = pos := (processOccurrence_some hpo).1
    have hoc2 : oc.2 = pos := by rw [← hc2pos, hc2fst]
    have hstople : oc.2 + 5 ≤ record.2.length := by omega
    have hord : oc.1 ≤ oc.2 := by
      rw [he1]
      omega
    have hlen : (pySlice record.2 oc.1 (oc.2 + 5)).length = (oc.2 + 5) - oc.1 :=
      pySlice_length hstople
    refine ⟨hsid, ?_, ?_, ?_⟩
    · rw [hstart, hstop]; omega
    · rw [hstart, hstop, hseq, hlen]
    · rw [hstop]; exact hstople

/-- The orchestrator only appends candidates whose extents delimit their
slice inside their own record. -/
lemma detectAllAux_mem (aligner : List Char → List Char → Nat × Nat × Nat)
    (minLen maxLen : Int) (tirInfo : Bool) (h4 : 4 ≤ minLen) :
    ∀ (records : List (String × List Char)) (seqId : Nat)
      (st : List Candidate × Nat) (cand : Candidate),
      cand ∈ (detectAllAux aligner minLen maxLen tirInfo records seqId st).1 →
      cand ∈ st.1 ∨ ∃ k, k < records.length ∧ cand.seqId = seqId + k ∧
        cand.start ≤ cand.stop ∧ cand.stop - cand.start = cand.seq.length ∧
        cand.stop ≤ (records.getD k ("", [])).2.length := by
  intro records
  induction records with
  | nil => intro seqId st cand h; exact Or.inl h
  | cons record rest ih =>
    intro seqId st cand h
    simp only [detectAllAux] at h
    rcases ih (seqId + 1) _ cand h with hin | ⟨k, hk, hsid, hrest⟩
    · rcases detect_family_mem aligner record minLen maxLen tirInfo seqId _
        "CACTG".toList "CAGTG".toList h4 _ cand hin with hin2 | ⟨hsid, hprops⟩
      · rcases detect_family_mem aligner record minLen maxLen tirInfo seqId _
          "CACTA".toList "TAGTG".toList h4 _ cand hin2 with hin3 | ⟨hsid, hprops⟩
        · exact Or.inl hin3
        · exact Or.inr ⟨0, by simp, by omega, hprops⟩
      · exact Or.inr ⟨0, by simp, by omega, hprops⟩
    · refine Or.inr ⟨k + 1, by simp; omega, by omega, ?_⟩
      rw [List.getD_cons_succ]
      exact hrest

/-- C10.  Whenever `min_len ≥ 4` (always true for validated
configurations), every candidate of a detection run has
`end - start = len(sequence_slice)` with `start ≤ end`, and `end` never
exceeds the length of the owning record's sequence (the record whose
1-based index is the candidate's `seq_id`): the closing-side boundary
check `sequence_length ≥ closing + 8` keeps the slice untruncated. -/
theorem C10_extents_delimit_slice :
    ∀ (aligner : List Char → List Char → Nat × Nat × Nat)
      (minLen maxLen : Int) (tirInfo : Bool)
      (records : List (String × List Char)) (cand : Candidate),
      4 ≤ minLen →
      cand ∈ (detect_all_candidates aligner minLen maxLen tirInfo records).1 →
      cand.start ≤ cand.stop ∧
      cand.stop - cand.start = cand.seq.length ∧
      ∃ k, k < records.length ∧ cand.seqId = k + 1 ∧
        cand.stop ≤ (records.getD k ("", [])).2.length := by
  intro aligner minLen maxLen tirInfo records cand h4 hmem
  rcases detectAllAux_mem aligner minLen maxLen tirInfo h4 records 1 ([], 1)
    cand hmem with hin | ⟨k, hk, hsid, ho, hl, hb⟩
  · exact absurd hin (List.not_mem_nil cand)
  · exact ⟨ho, hl, k, hk, by omega, hb⟩

/-- Witness for C10 at the demo genome's only candidate. -/
theorem C10_witness :
    (3 : Nat) ≤ 55 ∧ 55 - 3 = (pySlice demoSeq 3 55).length ∧
    ∃ k, k < 1 ∧ 1 = k + 1 ∧ 55 ≤ (([("rec", demoSeq)].getD k ("", [])).2.length) :=
  C10_extents_delimit_slice nullAligner 50 23018 false [("rec", demoSeq)]
    ⟨"rec_CACTA1", pySlice demoSeq 3 55, 3, 55, 1⟩ (by decide) (by decide)

end Cacta

namespace Cacta

/-! ### Border theory for the KMP proof (claim C3) -/

/-- Of two suffixes of one list, the shorter is a suffix of the longer. -/
lemma suffix_of_suffix_length_le {l₁ l₂ t : List Char} (h1 : l₁ <:+ t)
    (h2 : l₂ <:+ t) (hl : l₁.length ≤ l₂.length) : l₁ <:+ l₂ := by
  have hp := List.prefix_of_prefix_length_le h1.reverse h2.reverse (by simpa using hl)
  have hs := hp.reverse
  simpa using hs

/-- Appending one symbol to both sides of a suffix relation. -/
lemma suffix_concat_iff {l t : List Char} {a c : Char} :
    l ++ [a] <:+ t ++ [c] ↔ a = c ∧ l <:+ t := by
  constructor
  · intro h
    have hr := h.reverse
    simp only [List.reverse_append, List.reverse_cons, List.reverse_nil,
      List.nil_append, List.singleton_append] at hr
    obtain ⟨hac, hlt⟩ := List.cons_prefix_cons.mp hr
    refine ⟨hac, ?_⟩
    have := hlt.reverse
    simpa using this
  · rintro ⟨rfl, ⟨u, hu⟩⟩
    exact ⟨u, by rw [← List.append_assoc, hu]⟩

lemma take_succ_getD {p : List Char} {k : Nat} (hk : k < p.length) :
    p.take (k + 1) = p.take k ++ [p.getD k ' '] := by
  rw [List.take_succ]
  congr 1
  rw [List.getElem?_eq_getElem hk, List.getD_eq_getElem?_getD,
    List.getElem?_eq_getElem hk]
  rfl

/-- A non-empty prefix of the motif is a suffix of `t ++ [c]` iff its
body is a suffix of `t` and its last symbol is `c`. -/
lemma ps_extend {p t : List Char} {c : Char} {k : Nat} (hk1 : 1 ≤ k)
    (hk2 : k ≤ p.length) :
    (p.take k <:+ t ++ [c]) ↔ (p.take (k - 1) <:+ t ∧ p.getD (k - 1) ' ' = c) := by
  obtain ⟨k, rfl⟩ : ∃ j, k = j + 1 := ⟨k - 1, by omega⟩
  simp only [Nat.add_sub_cancel]
  rw [take_succ_getD (by omega), suffix_concat_iff]
  tauto

end Cacta

namespace Cacta

/-- Correctness of the `while` fallback loop: started from a
prefix-suffix length `j` of `t` such that every longer candidate (up to
`b`) has already been excluded or mismatches `c`, it lands on a
prefix-suffix of `t` no longer than `j`, it only stops short of a match
at 0, and every prefix-suffix of `t` up to `b` is still either below the
final value or mismatching `c`.  Needs the failure table to be correct
below `b` and fuel at least `j`. -/
lemma kmpFallback_spec (p : List Char) (table : List Nat) (c : Char) (b : Nat)
    (hb : b + 1 ≤ p.length)
    (htab : ∀ q, q + 1 ≤ b → table.getD q 0 = borderLen p (q + 1)) :
    ∀ fuel j (t : List Char), j ≤ fuel → j ≤ b →
      p.take j <:+ t →
      (∀ k, k ≤ b → p.take k <:+ t → (k ≤ j ∨ p.getD k ' ' ≠ c)) →
      kmpFallback table p c fuel j ≤ j ∧
      p.take (kmpFallback table p c fuel j) <:+ t ∧
      (p.getD (kmpFallback table p c fuel j) ' ' ≠ c →
        kmpFallback table p c fuel j = 0) ∧
      (∀ k, k ≤ b → p.take k <:+ t →
        (k ≤ kmpFallback table p c fuel j ∨ p.getD k ' ' ≠ c)) := by
  intro fuel
  induction fuel with
  | zero =>
    intro j t hjf hjb hps hinv
    have hj0 : j = 0 := by omega
    subst hj0
    simp only [kmpFallback]
    exact ⟨by trivial, hps, fun _ => trivial, hinv⟩
  | succ fuel ih =>
    intro j t hjf hjb hps hinv
    cases j with
    | zero =>
      simp only [kmpFallback]
      exact ⟨by trivial, hps, fun _ => trivial, hinv⟩
    | succ jj =>
      by_cases hch : p.getD (jj + 1) ' ' = c
      · have heq : kmpFallback table p c (fuel + 1) (jj + 1) = jj + 1 := by
          simp only [kmpFallback]
          rw [if_pos hch]
        rw [heq]
        exact ⟨le_refl _, hps, fun hcon => absurd hch hcon, hinv⟩
      · have heq : kmpFallback table p c (fuel + 1) (jj + 1) =
            kmpFallback table p c fuel (table.getD jj 0) := by
          simp only [kmpFallback]
          rw [if_neg hch]
        have htabjj : table.getD jj 0 = borderLen p (jj + 1) := htab jj (by omega)
        have hkb_le : borderLen p (jj + 1) ≤ jj := by
          unfold borderLen
          have := @Nat.findGreatest_le (fun k => p.take k <:+ p.take (jj + 1)) _
            (jj + 1 - 1)
          omega
        have hkb_ps_p : p.take (borderLen p (jj + 1)) <:+ p.take (jj + 1) := by
          unfold borderLen
          exact @Nat.findGreatest_spec 0 (fun k => p.take k <:+ p.take (jj + 1)) _
            (jj + 1 - 1) (Nat.zero_le _)
            (by show List.take 0 p <:+ List.take (jj + 1) p
                rw [List.take_zero]
                exact List.nil_suffix)
        have hkb_ps : p.take (borderLen p (jj + 1)) <:+ t := hkb_ps_p.trans hps
        have hinv2 : ∀ k, k ≤ b → p.take k <:+ t →
            (k ≤ borderLen p (jj + 1) ∨ p.getD k ' ' ≠ c) := by
          intro k hkb2 hkps
          rcases hinv k hkb2 hkps with hk | hk
          · rcases Nat.lt_or_ge k (jj + 1) with hlt | hge
            · left
              unfold borderLen
              apply Nat.le_findGreatest (by omega)
              apply suffix_of_suffix_length_le hkps hps
              rw [List.length_take, List.length_take]
              rw [min_eq_left (by omega), min_eq_left (by omega)]
              omega
            · right
              have hkeq : k = jj + 1 := by omega
              rw [hkeq]
              exact hch
          · exact Or.inr hk
        have hres := ih (table.getD jj 0) t
          (by rw [htabjj]; omega)
          (by rw [htabjj]; omega)
          (by rw [htabjj]; exact hkb_ps)
          (by rw [htabjj]; exact hinv2)
        rw [heq]
        obtain ⟨c1, c2, c3, c4⟩ := hres
        refine ⟨?_, c2, c3, c4⟩
        omega

end Cacta

namespace Cacta

/-- Loop invariant proof for `create_prefix_table`: entries written so
far hold the proper-border lengths, unwritten entries are still 0, and
`match_count` is the longest proper border of the processed prefix. -/
lemma createPrefixTableAux_spec (p : List Char) :
    ∀ fuel i table mc,
      i + fuel = p.length →
      1 ≤ i →
      table.length = p.length →
      (∀ q, q < i → table.getD q 0 = borderLen p (q + 1)) →
      (∀ q, i ≤ q → q < p.length → table.getD q 0 = 0) →
      mc ≤ i - 1 →
      p.take mc <:+ p.take i →
      (∀ k, k ≤ i - 1 → p.take k <:+ p.take i → k ≤ mc) →
      (∀ q, q < p.length →
        (createPrefixTableAux p fuel i table mc).getD q 0 = borderLen p (q + 1)) ∧
      (createPrefixTableAux p fuel i table mc).length = p.length := by
  intro fuel
  induction fuel with
  | zero =>
    intro i table mc hlen h1 htl hcorr hzero hmc hps hmax
    have hi : i = p.length := by omega
    subst hi
    exact ⟨fun q hq => hcorr q hq, htl⟩
  | succ fuel ih =>
    intro i table mc hlen h1 htl hcorr hzero hmc hps hmax
    have hi : i < p.length := by omega
    obtain ⟨A, B, D, E⟩ := kmpFallback_spec p table (p.getD i ' ') (i - 1)
      (by omega) (fun q hq => hcorr q (by omega)) mc mc (p.take i) (le_refl mc)
      hmc hps (fun k hk hkps => Or.inl (hmax k hk hkps))
    set mc1 := kmpFallback table p (p.getD i ' ') mc mc with hmc1
    have hstake : p.take (i + 1) = p.take i ++ [p.getD i ' '] := take_succ_getD hi
    have hr_ps : p.take (if p.getD mc1 ' ' = p.getD i ' ' then mc1 + 1 else mc1)
        <:+ p.take (i + 1) := by
      by_cases hm2 : p.getD mc1 ' ' = p.getD i ' '
      · rw [if_pos hm2, hstake]
        refine (ps_extend (by omega) (by omega)).mpr ⟨?_, ?_⟩
        · simpa using B
        · simpa using hm2
      · rw [if_neg hm2, D hm2, List.take_zero]
        exact List.nil_suffix
    have hr_max : ∀ n2,
        (if p.getD mc1 ' ' = p.getD i ' ' then mc1 + 1 else mc1) < n2 → n2 ≤ i →
        ¬ p.take n2 <:+ p.take (i + 1) := by
      intro n2 hgt hle hcon
      have hn1 : 1 ≤ n2 := by
        by_cases hm2 : p.getD mc1 ' ' = p.getD i ' '
        · rw [if_pos hm2] at hgt; omega
        · rw [if_neg hm2] at hgt; omega
      rw [hstake] at hcon
      obtain ⟨hbody, hch2⟩ := (ps_extend hn1 (by omega)).mp hcon
      rcases E (n2 - 1) (by omega) hbody with h | h
      · by_cases hm2 : p.getD mc1 ' ' = p.getD i ' '
        · rw [if_pos hm2] at hgt; omega
        · rw [if_neg hm2] at hgt
          have h0 : mc1 = 0 := D hm2
          have hn2 : n2 = 1 := by omega
          subst hn2
          rw [h0] at hm2
          exact hm2 hch2
      · exact h hch2
    have hr_le : (if p.getD mc1 ' ' = p.getD i ' ' then mc1 + 1 else mc1) ≤ i := by
      by_cases hm2 : p.getD mc1 ' ' = p.getD i ' '
      · rw [if_pos hm2]; omega
      · rw [if_neg hm2]; omega
    have hreq : borderLen p (i + 1) =
        (if p.getD mc1 ' ' = p.getD i ' ' then mc1 + 1 else mc1) := by
      unfold borderLen
      rw [Nat.findGreatest_eq_iff]
      refine ⟨by simpa using hr_le, fun _ => hr_ps, ?_⟩
      intro n2 hgt hle2
      exact hr_max n2 hgt (by omega)
    by_cases hm2 : p.getD mc1 ' ' = p.getD i ' '
    · have hstep : createPrefixTableAux p (fuel + 1) i table mc =
          createPrefixTableAux p fuel (i + 1) (table.set i (mc1 + 1)) (mc1 + 1) := by
        simp only [createPrefixTableAux]
        rw [if_pos hm2]
      rw [hstep]
      refine ih (i + 1) (table.set i (mc1 + 1)) (mc1 + 1) (by omega) (by omega)
        (by rw [List.length_set]; exact htl) ?_ ?_ (by omega) ?_ ?_
      · intro q hq
        rcases Nat.lt_or_ge q i with hqi | hqi
        · have hkeep : (table.set i (mc1 + 1)).getD q 0 = table.getD q 0 := by
            rw [List.getD_eq_getElem?_getD, List.getElem?_set, if_neg (by omega),
              ← List.getD_eq_getElem?_getD]
          rw [hkeep]
          exact hcorr q hqi
        · have hq_eq : q = i := by omega
          subst hq_eq
          have hwrite : (table.set q (mc1 + 1)).getD q 0 = mc1 + 1 := by
            rw [List.getD_eq_getElem?_getD, List.getElem?_set, if_pos rfl,
              if_pos (by omega)]
            rfl
          rw [hwrite, hreq, if_pos hm2]
      · intro q hq1 hq2
        have hkeep : (table.set i (mc1 + 1)).getD q 0 = table.getD q 0 := by
          rw [List.getD_eq_getElem?_getD, List.getElem?_set, if_neg (by omega),
            ← List.getD_eq_getElem?_getD]
        rw [hkeep]
        exact hzero q (by omega) hq2
      · have := hr_ps
        rw [if_pos hm2] at this
        simpa using this
      · intro k hk hkps
        have hnot : ¬ (mc1 + 1 < k) := by
          intro hgt
          exact hr_max k (by rw [if_pos hm2]; exact hgt) (by omega) hkps
        omega
    · have h0 : mc1 = 0 := D hm2
      have hstep : createPrefixTableAux p (fuel + 1) i table mc =
          createPrefixTableAux p fuel (i + 1) table mc1 := by
        simp only [createPrefixTableAux]
        rw [if_neg hm2]
      rw [hstep]
      refine ih (i + 1) table mc1 (by omega) (by omega) htl ?_
        (fun q hq1 hq2 => hzero q (by omega) hq2) (by omega) ?_ ?_
      · intro q hq
        rcases Nat.lt_or_ge q i with hqi | hqi
        · exact hcorr q hqi
        · have hq_eq : q = i := by omega
          subst hq_eq
          rw [hzero q (le_refl q) (by omega), hreq, if_neg hm2, h0]
      · rw [h0, List.take_zero]
        exact List.nil_suffix
      · intro k hk hkps
        have hnot : ¬ (mc1 < k) := by
          intro hgt
          exact hr_max k (by rw [if_neg hm2]; exact hgt) (by omega) hkps
        omega

/-- The failure table computed by `create_prefix_table` stores the
proper-border lengths of all non-empty prefixes of the motif. -/
lemma create_prefix_table_correct (p : List Char) (hm : 1 ≤ p.length) :
    (∀ q, q < p.length →
      (create_prefix_table p).getD q 0 = borderLen p (q + 1)) ∧
    (create_prefix_table p).length = p.length := by
  unfold create_prefix_table
  refine createPrefixTableAux_spec p (p.length - 1) 1 _ 0 (by omega) (le_refl 1)
    (List.length_replicate p.length 0) ?_ ?_ (by omega) ?_ ?_
  · intro q hq
    have hq0 : q = 0 := by omega
    subst hq0
    have : (List.replicate p.length (0 : Nat)).getD 0 0 = 0 := by
      rw [List.getD_eq_getElem?_getD, List.getElem?_replicate, if_pos (by omega)]
      rfl
    rw [this]
    rfl
  · intro q hq1 hq2
    rw [List.getD_eq_getElem?_getD, List.getElem?_replicate, if_pos hq2]
    rfl
  · rw [List.take_zero]
    exact List.nil_suffix
  · intro k hk hkps
    omega

end Cacta

namespace Cacta

/-- Loop invariant proof for the KMP scan of `find_all_tirs`: with a
correct failure table, `j` always holds the length of the longest motif
prefix that is a suffix of the processed text, full matches are detected
at exactly the ends where the motif is a suffix of the processed text,
and each detected position is post-processed in scan order. -/
lemma findAllTirsAux_spec (p s : List Char) (opening : Bool) (table : List Nat)
    (hm : 1 ≤ p.length)
    (htab : ∀ q, q < p.length → table.getD q 0 = borderLen p (q + 1)) :
    ∀ fuel i j acc,
      i + fuel = s.length →
      j + 1 ≤ p.length →
      p.take j <:+ s.take i →
      (∀ k, k + 1 ≤ p.length → p.take k <:+ s.take i → k ≤ j) →
      findAllTirsAux p s opening table fuel i j acc =
        acc ++ (List.range' i fuel).filterMap (fun e =>
          if p.length ≤ e + 1 ∧ p <:+ s.take (e + 1)
          then processOccurrence s opening (e + 1 - p.length) else none) := by
  intro fuel
  induction fuel with
  | zero =>
    intro i j acc _ _ _ _
    simp [findAllTirsAux]
  | succ fuel ih =>
    intro i j acc hlen hjm hps hmax
    have hi : i < s.length := by omega
    obtain ⟨A, B, D, E⟩ := kmpFallback_spec p table (s.getD i ' ') (p.length - 1)
      (by omega) (fun q hq => htab q (by omega)) j j (s.take i) (le_refl j)
      (by omega) hps (fun k hk hkps => Or.inl (hmax k (by omega) hkps))
    set j1 := kmpFallback table p (s.getD i ' ') j j with hj1def
    have hstake : s.take (i + 1) = s.take i ++ [s.getD i ' '] := take_succ_getD hi
    have hr_ps : p.take (if p.getD j1 ' ' = s.getD i ' ' then j1 + 1 else j1)
        <:+ s.take (i + 1) := by
      by_cases hm2 : p.getD j1 ' ' = s.getD i ' '
      · rw [if_pos hm2, hstake]
        refine (ps_extend (by omega) (by omega)).mpr ⟨?_, ?_⟩
        · simpa using B
        · simpa using hm2
      · rw [if_neg hm2, D hm2, List.take_zero]
        exact List.nil_suffix
    have hr_max : ∀ k, k ≤ p.length → p.take k <:+ s.take (i + 1) →
        k ≤ (if p.getD j1 ' ' = s.getD i ' ' then j1 + 1 else j1) := by
      intro k hk hkps
      cases Nat.eq_zero_or_pos k with
      | inl h0 => subst h0; exact Nat.zero_le _
      | inr hpos =>
        rw [hstake] at hkps
        obtain ⟨hbody, hch2⟩ := (ps_extend hpos hk).mp hkps
        rcases E (k - 1) (by omega) hbody with h | h
        · by_cases hm2 : p.getD j1 ' ' = s.getD i ' '
          · rw [if_pos hm2]; omega
          · exfalso
            have h0 : j1 = 0 := D hm2
            have hk1 : k = 1 := by omega
            subst hk1
            rw [h0] at hm2
            exact hm2 (by simpa using hch2)
        · exact absurd hch2 h
    by_cases hne : s.getD i ' ' ≠ p.getD j1 ' '
    · -- mismatch at the new character: nothing matched ending at i
      have hg0 : j1 = 0 := D (fun hcc => hne hcc.symm)
      have hguard : ¬ (p.length ≤ i + 1 ∧ p <:+ s.take (i + 1)) := by
        rintro ⟨hl1, hl2⟩
        have hcontra := hr_max p.length (le_refl _)
          (by rw [List.take_length]; exact hl2)
        rw [if_neg (fun hcc => hne hcc.symm)] at hcontra
        omega
      have hstep : findAllTirsAux p s opening table (fuel + 1) i j acc =
          findAllTirsAux p s opening table fuel (i + 1) j1 acc := by
        simp only [findAllTirsAux]
        rw [if_pos hne]
      rw [hstep, ih (i + 1) j1 acc (by omega) (by omega)
        (by rw [hg0, List.take_zero]; exact List.nil_suffix) ?_,
        List.range'_succ, List.filterMap_cons_none (by rw [if_neg hguard])]
      intro k hk hkps
      have hle := hr_max k (by omega) hkps
      rw [if_neg (fun hcc => hne hcc.symm)] at hle
      exact hle
    · have hcc : s.getD i ' ' = p.getD j1 ' ' := not_not.mp hne
      have hccs : p.getD j1 ' ' = s.getD i ' ' := hcc.symm
      by_cases hfull : j1 + 1 ≠ p.length
      · -- the match is still partial: no full match ends at i
        have hguard : ¬ (p.length ≤ i + 1 ∧ p <:+ s.take (i + 1)) := by
          rintro ⟨hl1, hl2⟩
          have hcontra := hr_max p.length (le_refl _)
            (by rw [List.take_length]; exact hl2)
          rw [if_pos hccs] at hcontra
          omega
        have hstep : findAllTirsAux p s opening table (fuel + 1) i j acc =
            findAllTirsAux p s opening table fuel (i + 1) (j1 + 1) acc := by
          simp only [findAllTirsAux]
          rw [if_neg hne, if_pos hfull]
        rw [hstep, ih (i + 1) (j1 + 1) acc (by omega) (by omega)
          (by have h2 := hr_ps; rw [if_pos hccs] at h2; exact h2) ?_,
          List.range'_succ, List.filterMap_cons_none (by rw [if_neg hguard])]
        intro k hk hkps
        have hle := hr_max k (by omega) hkps
        rw [if_pos hccs] at hle
        exact hle
      · -- full match ending at i
        have hfull2 : j1 + 1 = p.length := not_not.mp hfull
        have hp_ps : p <:+ s.take (i + 1) := by
          have h2 := hr_ps
          rw [if_pos hccs, hfull2, List.take_length] at h2
          exact h2
        have hguard : p.length ≤ i + 1 ∧ p <:+ s.take (i + 1) := by
          refine ⟨?_, hp_ps⟩
          have hlen2 := hp_ps.length_le
          rw [List.length_take] at hlen2
          have hmin := min_le_left (i + 1) s.length
          omega
        have htabj1 : table.getD j1 0 = borderLen p (j1 + 1) := htab j1 (by omega)
        have hβ_le : borderLen p (j1 + 1) ≤ j1 := by
          unfold borderLen
          have := @Nat.findGreatest_le (fun k => p.take k <:+ p.take (j1 + 1)) _
            (j1 + 1 - 1)
          omega
        have hβ_ps : p.take (borderLen p (j1 + 1)) <:+ s.take (i + 1) := by
          have h1 : p.take (borderLen p (j1 + 1)) <:+ p.take (j1 + 1) := by
            unfold borderLen
            exact @Nat.findGreatest_spec 0 (fun k => p.take k <:+ p.take (j1 + 1)) _
              (j1 + 1 - 1) (Nat.zero_le _)
              (by show p.take 0 <:+ p.take (j1 + 1)
                  rw [List.take_zero]
                  exact List.nil_suffix)
          have h2 : p.take (j1 + 1) <:+ s.take (i + 1) := by
            rw [hfull2, List.take_length]
            exact hp_ps
          exact h1.trans h2
        have hβ_max : ∀ k, k + 1 ≤ p.length → p.take k <:+ s.take (i + 1) →
            k ≤ borderLen p (j1 + 1) := by
          intro k hk hkps
          unfold borderLen
          apply Nat.le_findGreatest (by omega)
          rw [hfull2, List.take_length]
          apply suffix_of_suffix_length_le hkps hp_ps
          rw [List.length_take]
          exact min_le_right _ _
        have hstep : findAllTirsAux p s opening table (fuel + 1) i j acc =
            (match processOccurrence s opening (i + 1 - p.length) with
              | some occ => findAllTirsAux p s opening table fuel (i + 1)
                  (table.getD j1 0) (acc ++ [occ])
              | none => findAllTirsAux p s opening table fuel (i + 1)
                  (table.getD j1 0) acc) := by
          simp only [findAllTirsAux]
          rw [if_neg hne, if_neg hfull]
        rw [hstep, List.range'_succ]
        rcases hpo : processOccurrence s opening (i + 1 - p.length) with _ | occ
        · rw [List.filterMap_cons_none (by
            show (if p.length ≤ i + 1 ∧ p <:+ s.take (i + 1)
              then processOccurrence s opening (i + 1 - p.length) else none) = none
            rw [if_pos hguard]
            exact hpo)]
          show findAllTirsAux p s opening table fuel (i + 1) (table.getD j1 0) acc
            = acc ++ (List.range' (i + 1) fuel).filterMap (fun e =>
              if p.length ≤ e + 1 ∧ p <:+ s.take (e + 1)
              then processOccurrence s opening (e + 1 - p.length) else none)
          rw [ih (i + 1) (table.getD j1 0) acc (by omega)
            (by rw [htabj1]; omega)
            (by rw [htabj1]; exact hβ_ps)
            (by rw [htabj1]; exact hβ_max)]
        · rw [List.filterMap_cons_some (by
            show (if p.length ≤ i + 1 ∧ p <:+ s.take (i + 1)
              then processOccurrence s opening (i + 1 - p.length) else none) = some occ
            rw [if_pos hguard]
            exact hpo)]
          show findAllTirsAux p s opening table fuel (i + 1) (table.getD j1 0)
              (acc ++ [occ])
            = acc ++ (occ :: (List.range' (i + 1) fuel).filterMap (fun e =>
              if p.length ≤ e + 1 ∧ p <:+ s.take (e + 1)
              then processOccurrence s opening (e + 1 - p.length) else none))
          rw [ih (i + 1) (table.getD j1 0) (acc ++ [occ]) (by omega)
            (by rw [htabj1]; omega)
            (by rw [htabj1]; exact hβ_ps)
            (by rw [htabj1]; exact hβ_max)]
          simp

end Cacta

namespace Cacta

/-- The motif is a suffix of `s.take (pos + m)` iff the window of the
text starting at `pos` equals the motif. -/
lemma suffix_take_iff_slice (p s : List Char) (pos : Nat)
    (hle : pos + p.length ≤ s.length) :
    (p <:+ s.take (pos + p.length)) ↔ pySlice s pos (pos + p.length) = p := by
  rw [List.suffix_iff_eq_drop]
  have hlen : (s.take (pos + p.length)).length = pos + p.length := by
    rw [List.length_take]
    exact min_eq_left hle
  rw [hlen]
  have harith : pos + p.length - p.length = pos := by omega
  rw [harith]
  unfold pySlice
  exact eq_comm

/-- Reindexing of the scan result: match *end* positions over the whole
text correspond exactly to match *start* offsets in `[0, n - m]`. -/
lemma ends_to_starts (p s : List Char) (opening : Bool) (hm : 1 ≤ p.length) :
    (List.range' 0 s.length).filterMap (fun e =>
        if p.length ≤ e + 1 ∧ p <:+ s.take (e + 1)
        then processOccurrence s opening (e + 1 - p.length) else none) =
      (List.range (s.length + 1 - p.length)).filterMap (fun pos =>
        if pySlice s pos (pos + p.length) = p
        then processOccurrence s opening pos else none) := by
  rcases Nat.lt_or_ge s.length p.length with hnm | hnm
  · have hz : s.length + 1 - p.length = 0 := by omega
    rw [hz, List.range_zero]
    rw [List.filterMap_eq_nil_iff.mpr ?_]
    · rfl
    intro e he
    rw [List.mem_range'_1] at he
    rw [if_neg]
    intro hcon
    omega
  · have hsplit : List.range' 0 s.length =
        List.range' 0 (p.length - 1) ++
          List.range' (p.length - 1) (s.length + 1 - p.length) := by
    -- `range'_append` with step 1 after normalizing the endpoints
      have hr := List.range'_append 0 (p.length - 1) (s.length + 1 - p.length) 1
      have h1 : 0 + 1 * (p.length - 1) = p.length - 1 := by omega
      have h2 : s.length + 1 - p.length + (p.length - 1) = s.length := by omega
      rw [h1, h2] at hr
      exact hr.symm
    rw [hsplit, List.filterMap_append]
    have hleft : (List.range' 0 (p.length - 1)).filterMap (fun e =>
        if p.length ≤ e + 1 ∧ p <:+ s.take (e + 1)
        then processOccurrence s opening (e + 1 - p.length) else none) = [] := by
      rw [List.filterMap_eq_nil_iff]
      intro e he
      rw [List.mem_range'_1] at he
      rw [if_neg]
      intro hcon
      omega
    rw [hleft, List.nil_append]
    rw [List.range'_eq_map_range, List.filterMap_map]
    apply List.filterMap_congr
    intro pos hpos
    rw [List.mem_range] at hpos
    show (if p.length ≤ p.length - 1 + pos + 1 ∧ p <:+ s.take (p.length - 1 + pos + 1)
      then processOccurrence s opening (p.length - 1 + pos + 1 - p.length) else none) =
      (if pySlice s pos (pos + p.length) = p
      then processOccurrence s opening pos else none)
    have he1 : p.length - 1 + pos + 1 = pos + p.length := by omega
    have he2 : p.length - 1 + pos + 1 - p.length = pos := by omega
    rw [he2, he1]
    have hiff : (p.length ≤ pos + p.length ∧ p <:+ s.take (pos + p.length)) ↔
        pySlice s pos (pos + p.length) = p := by
      rw [and_iff_right (Nat.le_add_left p.length pos)]
      exact suffix_take_iff_slice p s pos (by omega)
    exact if_congr hiff rfl rfl

/-- The KMP occurrence collector agrees with the naive one on every
motif, text and orientation. -/
lemma find_all_tirs_eq_naive (tir s : List Char) (opening : Bool) :
    find_all_tirs tir s opening = naiveTirOccurrences tir s opening := by
  unfold find_all_tirs naiveTirOccurrences
  by_cases h0 : tir.length = 0
  · rw [if_pos h0, if_pos h0]
  · rw [if_neg h0, if_neg h0]
    have hm : 1 ≤ tir.length := by omega
    obtain ⟨htab, _⟩ := create_prefix_table_correct tir hm
    have hinit : ∀ k, k + 1 ≤ tir.length → tir.take k <:+ s.take 0 → k ≤ 0 := by
      intro k hk hkps
      rw [List.take_zero] at hkps
      have hnil := List.suffix_nil.mp hkps
      rcases List.take_eq_nil_iff.mp hnil with hk0 | htnil
      · omega
      · rw [htnil] at hk
        simp at hk
    rw [findAllTirsAux_spec tir s opening _ hm htab s.length 0 0 [] (by omega) hm
      (by rw [List.take_zero]; exact List.nil_suffix) hinit,
      List.nil_append, ends_to_starts tir s opening hm]

/-- The occurrence list of `find_all_tirs` is strictly increasing in
position. -/
lemma find_all_tirs_sorted (tir s : List Char) (opening : Bool) :
    List.Pairwise (fun a b : Nat × Nat => a.1 < b.1)
      (find_all_tirs tir s opening) := by
  rw [find_all_tirs_eq_naive]
  unfold naiveTirOccurrences
  by_cases h0 : tir.length = 0
  · rw [if_pos h0]
    exact List.Pairwise.nil
  · rw [if_neg h0]
    rw [List.pairwise_filterMap]
    apply List.Pairwise.imp ?_ (List.pairwise_lt_range (s.length + 1 - tir.length))
    intro a b hab x hx y hy
    by_cases hga : pySlice s a (a + tir.length) = tir
    · rw [if_pos hga] at hx
      by_cases hgb : pySlice s b (b + tir.length) = tir
      · rw [if_pos hgb] at hy
        have hxa : x.1 = a := (processOccurrence_some (Option.mem_def.mp hx)).1
        have hyb : y.1 = b := (processOccurrence_some (Option.mem_def.mp hy)).1
        rw [hxa, hyb]
        exact hab
      · rw [if_neg hgb] at hy
        exact absurd hy (by simp)
    · rw [if_neg hga] at hx
      exact absurd hx (by simp)

end Cacta

namespace Cacta

/-- C3.  `find_all_tirs` returns exactly what the naive scan returns:
every offset `i ∈ [0, n-m]` with `sequence[i : i+m] == tir` — including
overlapping occurrences — post-filtered by the boundary and ACGT content
checks, in strictly increasing position order; an empty motif yields the
empty list. -/
theorem C3_kmp_matches_naive :
    ∀ tir s : List Char, ∀ opening : Bool,
      find_all_tirs tir s opening = naiveTirOccurrences tir s opening ∧
      List.Pairwise (fun a b : Nat × Nat => a.1 < b.1)
        (find_all_tirs tir s opening) ∧
      (tir.length = 0 → find_all_tirs tir s opening = []) :=
  fun tir s opening =>
    ⟨find_all_tirs_eq_naive tir s opening,
      find_all_tirs_sorted tir s opening,
      fun h0 => by unfold find_all_tirs; rw [if_pos h0]⟩

/-- Witness for C3 at the empty motif, discharging the `m = 0` premise. -/
theorem C3_witness : find_all_tirs [] demoSeq true = [] :=
  (C3_kmp_matches_naive [] demoSeq true).2.2 rfl

end Cacta
